import Mathlib

/-!
Verification of the shortest-route program in `src/main.py`: the place-catalog
loader (`load_places`), the road-graph loader (`load_graph`), the priority-queue
shortest-path engine (`dijkstra`), the path reconstructor (`reconstruct_path`),
and the route renderer (`find_edge` plus the accumulation loop of `main`).

Modelling conventions for the shallow embedding:
* Python dicts become association lists with Python's semantics: lookup finds
  the first matching key, assignment updates the first occurrence in place and
  otherwise appends (preserving insertion order).
* A data source is the list of its lines (`List String`); `str.strip` and
  `str.split(sep, maxsplit)` are implemented by structural recursion on the
  character list (`pyStrip`, `pySplit1`, `pySplit3`) so that concrete runs
  reduce inside the kernel.
* Python `int(...)` / `float(...)` parsing is modelled by `pythonInt?` /
  `pythonFloat?` over the literal grammar (sign, digit groups with single
  interior underscores, decimal point, exponent).  `float` weights are
  modelled as exact rationals; the special floating-point literals
  `inf`/`nan`, which have no rational counterpart, are outside the model.
* A raised exception is an `Except.error`; the loaders thus return either a
  complete structure or an error and nothing else (all-or-nothing).
* `heapq` is modelled by its multiset semantics: `heappush` adds an element
  and `heappop` removes the least element in the lexicographic order that
  Python uses on `(float, int)` tuples.
* The `while` loops of `dijkstra` and `reconstruct_path` take a fuel
  parameter; `none` means the loop has not yet terminated within the given
  fuel, `some` is the value actually returned by the Python function.
-/

/-! ### Python dict as an association list -/

/-- `d.get(k)`: first binding of `k` in insertion order (`None` when absent). -/
def dlookup {α β : Type} [DecidableEq α] : List (α × β) → α → Option β
  | [], _ => none
  | (k, v) :: rest, k0 => if k = k0 then some v else dlookup rest k0

/-- `d[k] = v`: replace the value of an existing key in place, else append. -/
def dset {α β : Type} [DecidableEq α] : List (α × β) → α → β → List (α × β)
  | [], k, v => [(k, v)]
  | (k0, v0) :: rest, k, v =>
    if k0 = k then (k0, v) :: rest else (k0, v0) :: dset rest k v

/-- `d.setdefault(k, v)` / `if k not in d: d[k] = v`: first-seen-wins insert. -/
def dinsertIfAbsent {α β : Type} [DecidableEq α] (m : List (α × β)) (k : α) (v : β) :
    List (α × β) :=
  match dlookup m k with
  | some _ => m
  | none => m ++ [(k, v)]

/-! ### Python `int(...)` and `float(...)` literal parsing -/

/-- Digit-group continuation: digits with single interior underscores. -/
def digitsTail : List Char → Bool
  | [] => true
  | '_' :: c :: rest => c.isDigit && digitsTail rest
  | c :: rest => c.isDigit && digitsTail rest

/-- A valid Python digit group: nonempty, starts and ends with a digit,
single underscores only between digits. -/
def pyGroupOk : List Char → Bool
  | [] => false
  | c :: rest => c.isDigit && digitsTail rest

def digitVal (c : Char) : Nat := c.toNat - '0'.toNat

def natOfDigits (l : List Char) : Nat := l.foldl (fun n c => 10 * n + digitVal c) 0

/-- Python `int(s)` on an already-stripped string: optional sign then a
digit group. -/
def pythonInt? (s : String) : Option Int :=
  let cs := s.toList
  let sb : Int × List Char :=
    match cs with
    | '+' :: rest => (1, rest)
    | '-' :: rest => (-1, rest)
    | _ => (1, cs)
  if pyGroupOk sb.2 then
    some (sb.1 * (natOfDigits (sb.2.filter (fun c => c ≠ '_')) : Int))
  else none

/-- Break a character list at the first character satisfying `p`;
`none` when no such character occurs. -/
def breakAt (p : Char → Bool) : List Char → List Char × Option (List Char)
  | [] => ([], none)
  | c :: rest =>
    if p c then ([], some rest)
    else
      let ab := breakAt p rest
      (c :: ab.1, ab.2)

/-- Exponent part of a float literal: optional sign then a digit group;
`none` input means no exponent (value `0`). -/
def pyExp? : Option (List Char) → Option Int
  | none => some 0
  | some ecs =>
    let sb : Int × List Char :=
      match ecs with
      | '+' :: rest => (1, rest)
      | '-' :: rest => (-1, rest)
      | _ => (1, ecs)
    if pyGroupOk sb.2 then
      some (sb.1 * (natOfDigits (sb.2.filter (fun c => c ≠ '_')) : Int))
    else none

/-- Python `float(s)` on an already-stripped string, as an exact rational:
optional sign, then digits with an optional decimal point (at least one digit
overall), then an optional exponent. -/
def pythonFloat? (s : String) : Option ℚ :=
  let cs := s.toList
  let sb : ℚ × List Char :=
    match cs with
    | '+' :: rest => (1, rest)
    | '-' :: rest => ((-1 : ℚ), rest)
    | _ => (1, cs)
  let me := breakAt (fun c => c = 'e' || c = 'E') sb.2
  let ifp := breakAt (fun c => c = '.') me.1
  let ip := ifp.1
  let fp := (ifp.2).getD []
  let ipOk := ip.isEmpty || pyGroupOk ip
  let fpOk := fp.isEmpty || pyGroupOk fp
  if ipOk && fpOk && (!ip.isEmpty || !fp.isEmpty) then
    match pyExp? me.2 with
    | none => none
    | some e =>
      let fdigits := fp.filter (fun c => c ≠ '_')
      let num : ℚ := (natOfDigits ((ip.filter (fun c => c ≠ '_')) ++ fdigits) : ℚ)
      some (sb.1 * (num / (10 : ℚ) ^ fdigits.length * (10 : ℚ) ^ e))
  else none

/-! ### `str.strip` and line splitting with `maxsplit` -/

/-- `str.strip()` on the character list: drop whitespace from both ends. -/
def pyStripL (l : List Char) : List Char :=
  ((l.dropWhile Char.isWhitespace).reverse.dropWhile Char.isWhitespace).reverse

/-- `str.strip()`. -/
def pyStrip (s : String) : String := ⟨pyStripL s.data⟩

/-- Split a character list at every occurrence of `sep` (Python `str.split`). -/
def pySplitChar (sep : Char) : List Char → List (List Char)
  | [] => [[]]
  | c :: rest =>
    if c = sep then [] :: pySplitChar sep rest
    else
      match pySplitChar sep rest with
      | g :: gs => (c :: g) :: gs
      | [] => [[c]]

/-- Re-join split groups with commas (the uncut remainder of a bounded split). -/
def joinComma : List (List Char) → List Char
  | [] => []
  | [g] => g
  | g :: gs => g ++ ',' :: joinComma gs

/-- `s.split(",", maxsplit=1)`. -/
def pySplit1 (s : String) : List String :=
  match pySplitChar ',' s.data with
  | [x] => [⟨x⟩]
  | x :: rest => [⟨x⟩, ⟨joinComma rest⟩]
  | [] => []

/-- `s.split(",", maxsplit=3)`. -/
def pySplit3 (s : String) : List String :=
  match pySplitChar ',' s.data with
  | a :: b :: c :: rest :: more => [⟨a⟩, ⟨b⟩, ⟨c⟩, ⟨joinComma (rest :: more)⟩]
  | parts => parts.map fun g => ⟨g⟩

/-! ### Place catalog loader (`load_places`) -/

/-- Parse one line of the places source: `none` for a blank line, otherwise
the `(identifier, name)` record with the `"null"` placeholder substituted for
an empty name. -/
def parsePlaceLine (line : String) : Except String (Option (Int × String)) :=
  let stripped := pyStrip line
  if stripped = "" then .ok none
  else
    match pySplit1 stripped with
    | [idStr, nameStr] =>
      let idT := pyStrip idStr
      let nameT := pyStrip nameStr
      if idT = "" then .error ("Missing place ID: " ++ line)
      else
        match pythonInt? idT with
        | none => .error ("Invalid place ID " ++ idT)
        | some pid => .ok (some (pid, if nameT = "" then "null" else nameT))
    | _ => .error ("Invalid format: " ++ line)

/-- The loop of `load_places`, carrying `(name_to_id, id_to_name)`. -/
def loadPlacesFrom :
    List (String × Int) × List (Int × String) → List String →
      Except String (List (String × Int) × List (Int × String))
  | st, [] => .ok st
  | st, l :: ls =>
    match parsePlaceLine l with
    | .error m => .error m
    | .ok none => loadPlacesFrom st ls
    | .ok (some r) =>
      loadPlacesFrom (dinsertIfAbsent st.1 r.2 r.1, dinsertIfAbsent st.2 r.1 r.2) ls

/-- `load_places`: build `(name_to_id, id_to_name)` from the lines of the
places source. -/
def load_places (lines : List String) :
    Except String (List (String × Int) × List (Int × String)) :=
  loadPlacesFrom ([], []) lines

/-- The successfully parsed records of a places source, in order. -/
def placeRecords (lines : List String) : List (Int × String) :=
  lines.filterMap fun l =>
    match parsePlaceLine l with
    | .ok (some r) => some r
    | _ => none

/-! ### Road graph loader (`load_graph`) -/

/-- One adjacency entry `(neighbor id, miles, description)`. -/
abbrev Entry : Type := Int × ℚ × String

/-- The adjacency structure: place id to neighbor list, a Python dict. -/
abbrev Graph : Type := List (Int × List Entry)

/-- `graph.get(u, [])`. -/
def getAdj : Graph → Int → List Entry
  | [], _ => []
  | (k, es) :: rest, u => if k = u then es else getAdj rest u

/-- `graph.setdefault(k, []).append(e)`. -/
def appendAdj : Graph → Int → Entry → Graph
  | [], k, e => [(k, [e])]
  | (k0, es) :: rest, k, e =>
    if k0 = k then (k0, es ++ [e]) :: rest else (k0, es) :: appendAdj rest k e

/-- Insert one raw road record in both directions. -/
def insertEdge (g : Graph) (r : Int × Int × ℚ × String) : Graph :=
  appendAdj (appendAdj g r.1 (r.2.1, r.2.2.1, r.2.2.2)) r.2.1 (r.1, r.2.2.1, r.2.2.2)

/-- Parse one line of the roads source: `none` for a blank line, otherwise the
record `(left id, right id, miles, description)` after validation. -/
def parseRoadLine (line : String) : Except String (Option (Int × Int × ℚ × String)) :=
  let stripped := pyStrip line
  if stripped = "" then .ok none
  else
    match pySplit3 stripped with
    | [ls, rs, ms, ds] =>
      match pythonInt? (pyStrip ls), pythonInt? (pyStrip rs) with
      | some lid, some rid =>
        (match pythonFloat? (pyStrip ms) with
         | some miles =>
           if miles < 0 then .error ("Negative distance: " ++ line)
           else .ok (some (lid, rid, miles, pyStrip ds))
         | none => .error ("Invalid distance " ++ pyStrip ms))
      | _, _ => .error ("Invalid place ID: " ++ line)
    | _ => .error ("Invalid format: " ++ line)

/-- The loop of `load_graph`. -/
def loadGraphFrom : Graph → List String → Except String Graph
  | g, [] => .ok g
  | g, l :: ls =>
    match parseRoadLine l with
    | .error m => .error m
    | .ok none => loadGraphFrom g ls
    | .ok (some r) => loadGraphFrom (insertEdge g r) ls

/-- `load_graph`: build the undirected adjacency structure from the lines of
the roads source. -/
def load_graph (lines : List String) : Except String Graph :=
  loadGraphFrom [] lines

/-- The successfully parsed records of a roads source, in order. -/
def roadRecords (lines : List String) : List (Int × Int × ℚ × String) :=
  lines.filterMap fun l =>
    match parseRoadLine l with
    | .ok (some r) => some r
    | _ => none

/-! ### Walks in the graph -/

/-- A walk in the adjacency structure, following stored directed entries. -/
inductive Walk (g : Graph) : Int → Int → Type where
  | nil (a : Int) : Walk g a a
  | cons {a c : Int} (b : Int) (w : ℚ) (ds : String)
      (hm : (b, w, ds) ∈ getAdj g a) (p : Walk g b c) : Walk g a c

/-- The cost of a walk: the sum of its edge weights. -/
def Walk.cost {g : Graph} : {a b : Int} → Walk g a b → ℚ
  | _, _, .nil _ => 0
  | _, _, .cons _ w _ _ p => w + Walk.cost p

/-- `b` is reachable from `a` in the adjacency structure. -/
def Reachable (g : Graph) (a b : Int) : Prop := Nonempty (Walk g a b)

/-- All stored edge weights are nonnegative (what the loader validates). -/
def NonnegG (g : Graph) : Prop := ∀ u v w ds, (v, w, ds) ∈ getAdj g u → 0 ≤ w

/-! ### Shortest-path engine (`dijkstra`) -/

/-- The mutable state of `dijkstra`: the graph it reads, the `dist` and `prev`
dicts and the `heapq` list. -/
structure DState where
  graph : Graph
  dist : List (Int × ℚ)
  prev : List (Int × Int)
  heap : List (ℚ × Int)
deriving DecidableEq

/-- The smaller of two heap entries in Python's lexicographic tuple order,
keeping the first on ties. -/
def pickMin (a b : ℚ × Int) : ℚ × Int :=
  if b.1 < a.1 ∨ (b.1 = a.1 ∧ b.2 < a.2) then b else a

/-- The least element of the heap in Python's tuple order. -/
def heapMin : List (ℚ × Int) → Option (ℚ × Int)
  | [] => none
  | x :: xs => some (xs.foldl pickMin x)

/-- `heapq.heappop`: remove and return the least entry. -/
def popMin (l : List (ℚ × Int)) : Option ((ℚ × Int) × List (ℚ × Int)) :=
  match heapMin l with
  | none => none
  | some m => some (m, l.erase m)

/-- The stale-entry test `current_dist > dist.get(u, float("inf"))`. -/
def staleB (dist : List (Int × ℚ)) (d : ℚ) (u : Int) : Bool :=
  match dlookup dist u with
  | some du => decide (du < d)
  | none => false

/-- Relax one outgoing edge of `u`, popped at distance `d`. -/
def relaxOne (u : Int) (d : ℚ) (st : DState) (e : Entry) : DState :=
  let nd := d + e.2.1
  match dlookup st.dist e.1 with
  | some dv =>
    if nd < dv then
      { st with dist := dset st.dist e.1 nd, prev := dset st.prev e.1 u,
                heap := st.heap ++ [(nd, e.1)] }
    else st
  | none =>
    { st with dist := dset st.dist e.1 nd, prev := dset st.prev e.1 u,
              heap := st.heap ++ [(nd, e.1)] }

/-- The `for v, weight, _ in graph.get(u, [])` relaxation loop. -/
def relaxList (u : Int) (d : ℚ) (st : DState) (es : List Entry) : DState :=
  es.foldl (relaxOne u d) st

/-- The `while heap:` loop of `dijkstra`, with fuel. -/
def dijkstraLoop (t : Int) : Nat → DState → Option DState
  | 0, _ => none
  | fuel + 1, st =>
    match popMin st.heap with
    | none => some st
    | some ((d, u), rest) =>
      let st1 : DState := { st with heap := rest }
      if staleB st1.dist d u then dijkstraLoop t fuel st1
      else if u = t then some st1
      else dijkstraLoop t fuel (relaxList u d st1 (getAdj st1.graph u))

/-- The initial state: `dist = {source: 0.0}`, empty `prev`,
`heap = [(0.0, source)]`. -/
def initState (g : Graph) (s : Int) : DState := ⟨g, [(s, 0)], [], [(0, s)]⟩

/-- `dijkstra(graph, source, target)`, returning `(dist, prev)`. -/
def dijkstra (g : Graph) (s t : Int) (fuel : Nat) :
    Option (List (Int × ℚ) × List (Int × Int)) :=
  (dijkstraLoop t fuel (initState g s)).map fun st => (st.dist, st.prev)

/-! ### Path reconstructor (`reconstruct_path`) -/

/-- The backward walk of `reconstruct_path`, with fuel; accumulates the node
list in visit order and reverses it on success. -/
def reconLoop (prev : List (Int × Int)) (source : Int) :
    Nat → Int → List Int → Option (Option (List Int))
  | 0, _, _ => none
  | fuel + 1, current, path =>
    if current = source then some (some path.reverse)
    else
      match dlookup prev current with
      | none => some none
      | some nxt => reconLoop prev source fuel nxt (path ++ [nxt])

/-- `reconstruct_path(prev, source, target)`: `some r` is the Python return
value (`r = none` meaning Python's `None`), the outer `none` means the
backward walk has not terminated within the fuel. -/
def reconstruct_path (prev : List (Int × Int)) (source target : Int) (fuel : Nat) :
    Option (Option (List Int)) :=
  if source = target then some (some [source])
  else if (dlookup prev target).isNone then some none
  else reconLoop prev source fuel target [target]

/-! ### Route renderer (`find_edge` and the accumulation loop of `main`) -/

/-- Scan a neighbor list for the first entry with the wanted neighbor id. -/
def findEdgeIn : List Entry → Int → Option (ℚ × String)
  | [], _ => none
  | (n, m, ds) :: rest, b => if n = b then some (m, ds) else findEdgeIn rest b

/-- `find_edge(graph, from_id, to_id)`. -/
def find_edge (g : Graph) (a b : Int) : Option (ℚ × String) :=
  findEdgeIn (getAdj g a) b

/-- The itinerary steps printed by `main`: for each consecutive pair of the
path with a matching edge, the record `(from, to, miles, description)`. -/
def routeSteps (g : Graph) (path : List Int) : List (Int × Int × ℚ × String) :=
  (path.zip path.tail).filterMap fun ab =>
    (find_edge g ab.1 ab.2).map fun mds => (ab.1, ab.2, mds.1, mds.2)

/-- The `total_distance` accumulation of `main`: fold over consecutive pairs,
adding the miles of each matched edge and skipping unmatched pairs. -/
def routeTotal (g : Graph) (path : List Int) : ℚ :=
  (path.zip path.tail).foldl
    (fun tot ab =>
      match find_edge g ab.1 ab.2 with
      | some mds => tot + mds.1
      | none => tot)
    0

/-! ### Association-list lemmas -/

theorem dlookup_dset {α β : Type} [DecidableEq α] (l : List (α × β)) (k : α) (v : β) (q : α) :
    dlookup (dset l k v) q = if k = q then some v else dlookup l q := by
  induction l with
  | nil => simp [dset, dlookup]
  | cons h rest ih =>
    obtain ⟨k1, v1⟩ := h
    by_cases hk : k1 = k
    · subst hk
      simp only [dset, if_pos rfl, dlookup]
      split <;> simp_all
    · simp only [dset, if_neg hk, dlookup]
      by_cases hq : k1 = q
      · subst hq
        have : ¬ k = k1 := fun h => hk h.symm
        simp [this]
      · simp [hq, ih]

theorem dlookup_append {α β : Type} [DecidableEq α] (l1 l2 : List (α × β)) (q : α) :
    dlookup (l1 ++ l2) q =
      match dlookup l1 q with
      | some w => some w
      | none => dlookup l2 q := by
  induction l1 with
  | nil => simp [dlookup]
  | cons h rest ih =>
    obtain ⟨k1, v1⟩ := h
    by_cases hq : k1 = q <;> simp [dlookup, hq, ih]

theorem dlookup_eq_none_iff {α β : Type} [DecidableEq α] (m : List (α × β)) (q : α) :
    dlookup m q = none ↔ q ∉ m.map Prod.fst := by
  induction m with
  | nil => simp [dlookup]
  | cons h rest ih =>
    obtain ⟨k1, v1⟩ := h
    simp only [dlookup, List.map_cons, List.mem_cons]
    by_cases hq : k1 = q
    · subst hq
      simp
    · rw [if_neg hq, ih]
      have : ¬ q = k1 := fun h => hq h.symm
      simp [this]

theorem dlookup_dinsertIfAbsent_of_some {α β : Type} [DecidableEq α]
    (m : List (α × β)) (k : α) (v : β) (q : α) (w : β) (h : dlookup m q = some w) :
    dlookup (dinsertIfAbsent m k v) q = some w := by
  unfold dinsertIfAbsent
  cases hk : dlookup m k with
  | some _ => exact h
  | none => rw [dlookup_append, h]

theorem dlookup_dinsertIfAbsent_of_none {α β : Type} [DecidableEq α]
    (m : List (α × β)) (k : α) (v : β) (q : α) (h : dlookup m q = none) :
    dlookup (dinsertIfAbsent m k v) q = if q = k then some v else none := by
  unfold dinsertIfAbsent
  cases hk : dlookup m k with
  | some w =>
    rw [h]
    by_cases hqk : q = k
    · subst hqk
      rw [h] at hk
      cases hk
    · rw [if_neg hqk]
  | none =>
    rw [dlookup_append, h]
    simp only [dlookup]
    by_cases hqk : k = q
    · subst hqk
      simp
    · rw [if_neg hqk, if_neg (fun h => hqk h.symm)]

theorem nodup_keys_dinsertIfAbsent {α β : Type} [DecidableEq α]
    (m : List (α × β)) (k : α) (v : β) (h : (m.map Prod.fst).Nodup) :
    ((dinsertIfAbsent m k v).map Prod.fst).Nodup := by
  unfold dinsertIfAbsent
  cases hk : dlookup m k with
  | some _ => exact h
  | none =>
    rw [dlookup_eq_none_iff] at hk
    simp [List.nodup_append, h, hk]

/-! ### Adjacency-structure lemmas -/

theorem getAdj_appendAdj (g : Graph) (k : Int) (e : Entry) (q : Int) :
    getAdj (appendAdj g k e) q = if k = q then getAdj g k ++ [e] else getAdj g q := by
  induction g with
  | nil =>
    by_cases hk : k = q <;> simp [appendAdj, getAdj, hk]
  | cons h rest ih =>
    obtain ⟨k1, es1⟩ := h
    by_cases hk : k1 = k
    · subst hk
      by_cases hq : k1 = q <;> simp [appendAdj, getAdj, hq]
    · by_cases hq : k1 = q
      · subst hq
        have hkq : ¬ k = k1 := fun hh => hk hh.symm
        simp [appendAdj, getAdj, hk, hkq]
      · simp [appendAdj, getAdj, hk, hq, ih]

theorem getAdj_eq_nil_of_not_mem (g : Graph) (q : Int) (h : q ∉ g.map Prod.fst) :
    getAdj g q = [] := by
  induction g with
  | nil => rfl
  | cons hd rest ih =>
    obtain ⟨k1, es1⟩ := hd
    simp only [List.map_cons, List.mem_cons] at h
    push_neg at h
    simp only [getAdj]
    rw [if_neg (fun hh => h.1 hh.symm), ih h.2]

theorem getAdj_insertEdge (g : Graph) (a b : Int) (w0 : ℚ) (ds0 : String) (q : Int) :
    getAdj (insertEdge g (a, b, w0, ds0)) q =
      getAdj g q ++
        ((if a = q then [(b, w0, ds0)] else []) ++ (if b = q then [(a, w0, ds0)] else [])) := by
  unfold insertEdge
  simp only [getAdj_appendAdj]
  by_cases hb : b = q <;> by_cases ha : a = q
  · subst hb
    rw [if_pos rfl, if_pos ha, ha, if_pos rfl]
    simp
  · subst hb
    rw [if_pos rfl, if_neg ha, if_neg ha]
    simp
  · subst ha
    rw [if_neg hb, if_pos rfl, if_neg hb]
    simp
  · rw [if_neg hb, if_neg ha, if_neg ha, if_neg hb]
    simp

/-! ### Occurrence counting (for parallel-edge retention) -/

/-- Number of occurrences of `a` in `l`. -/
def cnt {α : Type} [DecidableEq α] (l : List α) (a : α) : Nat :=
  (l.filter fun x => decide (x = a)).length

theorem cnt_nil {α : Type} [DecidableEq α] (a : α) : cnt ([] : List α) a = 0 := rfl

theorem cnt_cons {α : Type} [DecidableEq α] (x : α) (l : List α) (a : α) :
    cnt (x :: l) a = (if x = a then 1 else 0) + cnt l a := by
  by_cases h : x = a <;> simp [cnt, List.filter_cons, h, Nat.add_comm]

theorem cnt_append {α : Type} [DecidableEq α] (l1 l2 : List α) (a : α) :
    cnt (l1 ++ l2) a = cnt l1 a + cnt l2 a := by
  simp [cnt, List.filter_append]

theorem cnt_pos_iff {α : Type} [DecidableEq α] (l : List α) (a : α) :
    0 < cnt l a ↔ a ∈ l := by
  induction l with
  | nil => simp [cnt_nil]
  | cons x rest ih =>
    rw [cnt_cons]
    by_cases h : x = a
    · simp [h]
    · have h2 : ¬ a = x := fun hh => h hh.symm
      simp [h, h2, ih]

theorem cnt_if_singleton {α : Type} [DecidableEq α] (c : Prop) [Decidable c] (x a : α) :
    cnt (if c then [x] else []) a = if c ∧ x = a then 1 else 0 := by
  by_cases hc : c
  · rw [if_pos hc]
    by_cases hx : x = a <;> simp [cnt_cons, cnt_nil, hx, hc]
  · simp [hc, cnt_nil]

/-! ### Road-loader structure lemmas -/

theorem roadRecords_nil : roadRecords [] = [] := rfl

theorem roadRecords_cons_none (l : String) (ls : List String)
    (hp : parseRoadLine l = .ok none) : roadRecords (l :: ls) = roadRecords ls := by
  simp [roadRecords, List.filterMap_cons, hp]

theorem roadRecords_cons_some (l : String) (ls : List String)
    (r : Int × Int × ℚ × String) (hp : parseRoadLine l = .ok (some r)) :
    roadRecords (l :: ls) = r :: roadRecords ls := by
  simp [roadRecords, List.filterMap_cons, hp]

theorem loadGraphFrom_count (lines : List String) : ∀ (g0 g : Graph),
    loadGraphFrom g0 lines = .ok g →
    ∀ u v w ds, u ≠ v →
      cnt (getAdj g u) (v, w, ds) =
        cnt (getAdj g0 u) (v, w, ds) + cnt (roadRecords lines) (u, v, w, ds)
          + cnt (roadRecords lines) (v, u, w, ds) := by
  induction lines with
  | nil =>
    intro g0 g h u v w ds _
    cases h
    simp [roadRecords_nil, cnt_nil]
  | cons l ls ih =>
    intro g0 g h u v w ds huv
    rw [loadGraphFrom] at h
    cases hp : parseRoadLine l with
    | error m =>
      rw [hp] at h
      exact Except.noConfusion h
    | ok or =>
      rw [hp] at h
      cases or with
      | none =>
        rw [roadRecords_cons_none l ls hp]
        exact ih g0 g h u v w ds huv
      | some r =>
        obtain ⟨a, b, w0, ds0⟩ := r
        rw [roadRecords_cons_some l ls _ hp]
        have hrec := ih _ g h u v w ds huv
        rw [hrec, getAdj_insertEdge, cnt_append, cnt_append, cnt_if_singleton,
          cnt_if_singleton, cnt_cons, cnt_cons]
        simp only [Prod.mk.injEq]
        split_ifs <;> first | omega | tauto

/-! ### Loader validation: nonnegative weights, error propagation -/

/-- Decidable equality of loader results, for evaluating concrete runs. -/
instance {ε α : Type} [DecidableEq ε] [DecidableEq α] : DecidableEq (Except ε α) := fun x y =>
  match x, y with
  | .error a, .error b =>
    if h : a = b then .isTrue (congrArg Except.error h)
    else .isFalse (fun hh => h (Except.error.inj hh))
  | .ok a, .ok b =>
    if h : a = b then .isTrue (congrArg Except.ok h)
    else .isFalse (fun hh => h (Except.ok.inj hh))
  | .error _, .ok _ => .isFalse (fun hh => Except.noConfusion hh)
  | .ok _, .error _ => .isFalse (fun hh => Except.noConfusion hh)

/-- A computation that raised (`Except.error`). -/
def isError {ε α : Type} : Except ε α → Prop
  | .error _ => True
  | .ok _ => False

theorem isError_iff {ε α : Type} (e : Except ε α) : isError e ↔ ∃ m, e = .error m := by
  cases e <;> simp [isError]

theorem parseRoadLine_nonneg (l : String) (r : Int × Int × ℚ × String)
    (hp : parseRoadLine l = .ok (some r)) : 0 ≤ r.2.2.1 := by
  simp only [parseRoadLine] at hp
  split at hp
  · cases hp
  · split at hp
    · rename_i ls0 rs0 ms0 ds0
      split at hp
      · rename_i lid rid
        split at hp
        · rename_i miles
          split at hp
          · cases hp
          · rename_i hneg
            simp only [Except.ok.injEq, Option.some.injEq] at hp
            subst hp
            exact not_lt.mp hneg
        · cases hp
      · cases hp
    · cases hp

theorem nonnegG_insertEdge (g : Graph) (a b : Int) (w0 : ℚ) (ds0 : String)
    (hg : NonnegG g) (hw : 0 ≤ w0) : NonnegG (insertEdge g (a, b, w0, ds0)) := by
  intro u v w ds hm
  rw [getAdj_insertEdge] at hm
  rcases List.mem_append.mp hm with h | h
  · exact hg u v w ds h
  · rcases List.mem_append.mp h with h | h
    · by_cases ha : a = u
      · rw [if_pos ha] at h
        have hh := List.mem_singleton.mp h
        simp only [Prod.mk.injEq] at hh
        rw [hh.2.1]
        exact hw
      · rw [if_neg ha] at h
        cases h
    · by_cases hb : b = u
      · rw [if_pos hb] at h
        have hh := List.mem_singleton.mp h
        simp only [Prod.mk.injEq] at hh
        rw [hh.2.1]
        exact hw
      · rw [if_neg hb] at h
        cases h

theorem loadGraphFrom_nonneg (lines : List String) : ∀ g0 g,
    loadGraphFrom g0 lines = .ok g → NonnegG g0 → NonnegG g := by
  induction lines with
  | nil =>
    intro g0 g h h0
    cases h
    exact h0
  | cons l ls ih =>
    intro g0 g h h0
    rw [loadGraphFrom] at h
    cases hp : parseRoadLine l with
    | error m =>
      rw [hp] at h
      exact Except.noConfusion h
    | ok or =>
      rw [hp] at h
      cases or with
      | none => exact ih g0 g h h0
      | some r =>
        obtain ⟨a, b, w0, ds0⟩ := r
        exact ih _ g h (nonnegG_insertEdge g0 a b w0 ds0 h0 (parseRoadLine_nonneg l _ hp))

theorem load_graph_nonneg (lines : List String) (g : Graph)
    (h : load_graph lines = .ok g) : NonnegG g := by
  refine loadGraphFrom_nonneg lines [] g h ?_
  intro u v w ds hm
  cases hm

/-- The first comma-separated field of a roads line, as the parser sees it. -/
def firstRoadField (l : String) : String :=
  pyStrip ⟨(pySplitChar ',' (pyStrip l).data).headD []⟩

theorem parseRoadLine_error_of_badFirst (l : String) (h1 : pyStrip l ≠ "")
    (h2 : pythonInt? (firstRoadField l) = none) : isError (parseRoadLine l) := by
  unfold firstRoadField at h2
  simp only [parseRoadLine]
  rw [if_neg h1]
  rcases hs : pySplitChar ',' (pyStrip l).data with _ | ⟨a, _ | ⟨b, _ | ⟨c, _ | ⟨d, more⟩⟩⟩⟩
  · simp [pySplit3, hs, isError]
  · simp [pySplit3, hs, isError]
  · simp [pySplit3, hs, isError]
  · simp [pySplit3, hs, isError]
  · rw [hs] at h2
    simp only [List.headD_cons] at h2
    simp [pySplit3, hs, isError, h2]

theorem loadGraphFrom_error (l : String) (he : isError (parseRoadLine l)) :
    ∀ lines, l ∈ lines → ∀ g0, isError (loadGraphFrom g0 lines) := by
  intro lines
  induction lines with
  | nil => simp
  | cons l0 ls ih =>
    intro hml g0
    cases hp : parseRoadLine l0 with
    | error m => simp [loadGraphFrom, hp, isError]
    | ok or =>
      have hne : l ≠ l0 := by
        rintro rfl
        rw [hp] at he
        cases he
      have hmem : l ∈ ls := by
        rcases List.mem_cons.mp hml with h | h
        · exact absurd h hne
        · exact h
      cases or with
      | none => simpa [loadGraphFrom, hp] using ih hmem g0
      | some r => simpa [loadGraphFrom, hp] using ih hmem (insertEdge g0 r)

/-! ### Claim C3: the loaded adjacency structure is symmetric with parallel
edges retained -/

/-- C3: for every valid roads data source, the adjacency structure returned by
`load_graph` is symmetric — every stored directed entry `(u, v, w, d)` with
`u ≠ v` has a mirror entry `(v, u, w, d)` in `v`'s list — and the two entries
of one raw record are appended, never replacing, so the number of copies of an
entry in `u`'s list equals the number of raw records carrying it (in either
orientation) and matches the count of the mirror entry. -/
theorem c3_adjacency_symmetric (lines : List String) (g : Graph)
    (hload : load_graph lines = .ok g) (u v : Int) (w : ℚ) (ds : String) (huv : u ≠ v) :
    ((v, w, ds) ∈ getAdj g u → (u, w, ds) ∈ getAdj g v) ∧
    cnt (getAdj g u) (v, w, ds) = cnt (getAdj g v) (u, w, ds) ∧
    cnt (getAdj g u) (v, w, ds) =
      cnt (roadRecords lines) (u, v, w, ds) + cnt (roadRecords lines) (v, u, w, ds) := by
  have h1 := loadGraphFrom_count lines [] g hload u v w ds huv
  have h2 := loadGraphFrom_count lines [] g hload v u w ds (fun hh => huv hh.symm)
  have hz : ∀ (x : Int) (e : Entry), cnt (getAdj ([] : Graph) x) e = 0 := fun _ _ => rfl
  rw [hz] at h1 h2
  refine ⟨?_, by omega, by omega⟩
  intro hm
  rw [← cnt_pos_iff] at hm ⊢
  omega

/-- Witness for C3 on the one-record roads source `"1,2,3.5,Main"`. -/
theorem c3_adjacency_symmetric_witness :
    ((2, (7 : ℚ)/2, "Main") ∈
        getAdj [(1, [(2, (7 : ℚ)/2, "Main")]), (2, [(1, (7 : ℚ)/2, "Main")])] 1 →
      (1, (7 : ℚ)/2, "Main") ∈
        getAdj [(1, [(2, (7 : ℚ)/2, "Main")]), (2, [(1, (7 : ℚ)/2, "Main")])] 2) ∧
    cnt (getAdj [(1, [(2, (7 : ℚ)/2, "Main")]), (2, [(1, (7 : ℚ)/2, "Main")])] 1)
        (2, (7 : ℚ)/2, "Main") =
      cnt (getAdj [(1, [(2, (7 : ℚ)/2, "Main")]), (2, [(1, (7 : ℚ)/2, "Main")])] 2)
        (1, (7 : ℚ)/2, "Main") ∧
    cnt (getAdj [(1, [(2, (7 : ℚ)/2, "Main")]), (2, [(1, (7 : ℚ)/2, "Main")])] 1)
        (2, (7 : ℚ)/2, "Main") =
      cnt (roadRecords ["1,2,3.5,Main"]) (1, 2, (7 : ℚ)/2, "Main")
        + cnt (roadRecords ["1,2,3.5,Main"]) (2, 1, (7 : ℚ)/2, "Main") :=
  c3_adjacency_symmetric ["1,2,3.5,Main"]
    [(1, [(2, (7 : ℚ)/2, "Main")]), (2, [(1, (7 : ℚ)/2, "Main")])]
    (by with_unfolding_all decide) 1 2 ((7 : ℚ)/2) "Main" (by decide)

/-! ### Claim C6: a malformed first field aborts loading with no graph -/

/-- C6: if any line of a roads source is non-blank and its first
comma-separated field does not parse as an integer, `load_graph` fails with a
`ValueError` (the spec's FormatError) and produces no adjacency structure at
all — zero edges are loaded, including edges of well-formed earlier lines,
since the error return carries no graph (all-or-nothing). -/
theorem c6_bad_line_aborts (lines : List String) (l : String) (hml : l ∈ lines)
    (h1 : pyStrip l ≠ "") (h2 : pythonInt? (firstRoadField l) = none) :
    ∃ m, load_graph lines = .error m := by
  rw [← isError_iff]
  exact loadGraphFrom_error l (parseRoadLine_error_of_badFirst l h1 h2) lines hml []

/-- Witness for C6: the spec's example line `"abc,5,10,MainSt"` after a
well-formed line. -/
theorem c6_bad_line_aborts_witness :
    ∃ m, load_graph ["1,2,3.5,Main", "abc,5,10,MainSt"] = .error m :=
  c6_bad_line_aborts ["1,2,3.5,Main", "abc,5,10,MainSt"] "abc,5,10,MainSt"
    (by simp) (by decide) (by rfl)

/-! ### Claim C2: first-seen-wins place catalog -/

theorem placeRecords_cons_none (l : String) (ls : List String)
    (hp : parsePlaceLine l = .ok none) : placeRecords (l :: ls) = placeRecords ls := by
  simp [placeRecords, List.filterMap_cons, hp]

theorem placeRecords_cons_some (l : String) (ls : List String) (r : Int × String)
    (hp : parsePlaceLine l = .ok (some r)) :
    placeRecords (l :: ls) = r :: placeRecords ls := by
  simp [placeRecords, List.filterMap_cons, hp]

theorem loadPlacesFrom_spec (lines : List String) :
    ∀ st out, loadPlacesFrom st lines = .ok out →
    (∀ pid, dlookup out.2 pid =
      (match dlookup st.2 pid with
       | some nm => some nm
       | none => ((placeRecords lines).find? (fun r => decide (r.1 = pid))).map
           (fun r => r.2))) ∧
    (∀ nm, dlookup out.1 nm =
      (match dlookup st.1 nm with
       | some pid => some pid
       | none => ((placeRecords lines).find? (fun r => decide (r.2 = nm))).map
           (fun r => r.1))) ∧
    ((st.2.map Prod.fst).Nodup → (out.2.map Prod.fst).Nodup) ∧
    ((st.1.map Prod.fst).Nodup → (out.1.map Prod.fst).Nodup) := by
  induction lines with
  | nil =>
    intro st out h
    cases h
    refine ⟨fun pid => ?_, fun nm => ?_, fun h => h, fun h => h⟩
    · cases hc : dlookup st.2 pid <;> simp [placeRecords, hc]
    · cases hc : dlookup st.1 nm <;> simp [placeRecords, hc]
  | cons l ls ih =>
    intro st out h
    rw [loadPlacesFrom] at h
    cases hp : parsePlaceLine l with
    | error m =>
      rw [hp] at h
      exact Except.noConfusion h
    | ok or =>
      rw [hp] at h
      cases or with
      | none =>
        rw [placeRecords_cons_none l ls hp]
        exact ih st out h
      | some r =>
        obtain ⟨pid0, nm0⟩ := r
        dsimp only at h
        rw [placeRecords_cons_some l ls _ hp]
        obtain ⟨ih1, ih2, ih3, ih4⟩ := ih _ out h
        refine ⟨fun pid => ?_, fun nm => ?_,
          fun hnd => ih3 (nodup_keys_dinsertIfAbsent _ _ _ hnd),
          fun hnd => ih4 (nodup_keys_dinsertIfAbsent _ _ _ hnd)⟩
        · rw [ih1 pid]
          cases hcur : dlookup st.2 pid with
          | some w =>
            rw [dlookup_dinsertIfAbsent_of_some _ _ _ _ _ hcur]
          | none =>
            rw [dlookup_dinsertIfAbsent_of_none _ _ _ _ hcur]
            by_cases hpp : pid = pid0
            · subst hpp
              rw [if_pos rfl, List.find?_cons_of_pos _ (by simp)]
              rfl
            · rw [if_neg hpp, List.find?_cons_of_neg _ (by simp [Ne.symm hpp])]
        · rw [ih2 nm]
          cases hcur : dlookup st.1 nm with
          | some w =>
            rw [dlookup_dinsertIfAbsent_of_some _ _ _ _ _ hcur]
          | none =>
            rw [dlookup_dinsertIfAbsent_of_none _ _ _ _ hcur]
            by_cases hpp : nm = nm0
            · subst hpp
              rw [if_pos rfl, List.find?_cons_of_pos _ (by simp)]
              rfl
            · rw [if_neg hpp, List.find?_cons_of_neg _ (by simp [Ne.symm hpp])]

/-- C2: for every valid places data source, the identifier-to-name mapping
binds every first-seen identifier exactly once to the name of its first
record, and the name-to-identifier mapping binds every first-seen name
exactly once to the identifier of its first record, however many later
duplicate identifiers or names follow. -/
theorem c2_first_seen_wins (lines : List String) (n2i : List (String × Int))
    (i2n : List (Int × String)) (h : load_places lines = .ok (n2i, i2n)) :
    (∀ pid, dlookup i2n pid =
        ((placeRecords lines).find? (fun r => decide (r.1 = pid))).map (fun r => r.2)) ∧
    (i2n.map Prod.fst).Nodup ∧
    (∀ nm, dlookup n2i nm =
        ((placeRecords lines).find? (fun r => decide (r.2 = nm))).map (fun r => r.1)) ∧
    (n2i.map Prod.fst).Nodup := by
  obtain ⟨h1, h2, h3, h4⟩ := loadPlacesFrom_spec lines ([], []) (n2i, i2n) h
  exact ⟨fun pid => by simpa [dlookup] using h1 pid, h3 (by simp),
    fun nm => by simpa [dlookup] using h2 nm, h4 (by simp)⟩

/-- Witness for C2 on a places source with a duplicate identifier (`2`) and a
duplicate name (`Lexington`). -/
theorem c2_first_seen_wins_witness :
    (∀ pid, dlookup [(1, "Lexington"), (2, "Columbia"), (3, "Lexington")] pid =
        ((placeRecords ["1,Lexington", "2,Columbia", "2,Dup", "3,Lexington"]).find?
            (fun r => decide (r.1 = pid))).map (fun r => r.2)) ∧
    (([(1, "Lexington"), (2, "Columbia"), (3, "Lexington")].map
        (@Prod.fst Int String)).Nodup) ∧
    (∀ nm, dlookup [("Lexington", 1), ("Columbia", 2), ("Dup", 2)] nm =
        ((placeRecords ["1,Lexington", "2,Columbia", "2,Dup", "3,Lexington"]).find?
            (fun r => decide (r.2 = nm))).map (fun r => r.1)) ∧
    (([("Lexington", 1), ("Columbia", 2), ("Dup", 2)].map
        (@Prod.fst String Int)).Nodup) :=
  c2_first_seen_wins ["1,Lexington", "2,Columbia", "2,Dup", "3,Lexington"]
    [("Lexington", 1), ("Columbia", 2), ("Dup", 2)]
    [(1, "Lexington"), (2, "Columbia"), (3, "Lexington")] (by decide)

/-! ### Claim C8: the route renderer -/

theorem findEdgeIn_eq_find? (es : List Entry) (b : Int) :
    findEdgeIn es b = (es.find? fun e => decide (e.1 = b)).map (fun e => e.2) := by
  induction es with
  | nil => rfl
  | cons e rest ih =>
    obtain ⟨n, m, ds⟩ := e
    by_cases hn : n = b
    · simp [findEdgeIn, hn, List.find?_cons_of_pos]
    · rw [findEdgeIn, if_neg hn, ih, List.find?_cons_of_neg _ (by simp [hn])]

theorem routeTotal_eq_sum_aux (g : Graph) (l : List (Int × Int)) : ∀ acc : ℚ,
    l.foldl
      (fun tot ab =>
        match find_edge g ab.1 ab.2 with
        | some mds => tot + mds.1
        | none => tot)
      acc =
    acc + ((l.filterMap fun ab =>
        (find_edge g ab.1 ab.2).map fun mds => (ab.1, ab.2, mds.1, mds.2)).map
          (fun st => st.2.2.1)).sum := by
  induction l with
  | nil => intro acc; simp
  | cons ab rest ih =>
    intro acc
    cases hf : find_edge g ab.1 ab.2 with
    | none => simp [List.foldl_cons, List.filterMap_cons, hf, ih]
    | some mds =>
      simp only [List.foldl_cons, List.filterMap_cons, hf, Option.map_some', ih,
        List.map_cons, List.sum_cons]
      ring

/-- C8: the renderer's total distance is the sum of the segment distances of
the successfully matched steps; each step's edge is the first entry of the
from-node's neighbor list whose neighbor equals the to-node; and on the path
`[1, 2, 3]` with edges `1–2` of weight `3` and `2–3` of weight `4.5` it
reports total distance `7.5` over two itinerary steps. -/
theorem c8_renderer_totals :
    (∀ (g : Graph) (path : List Int),
      routeTotal g path = ((routeSteps g path).map (fun st => st.2.2.1)).sum) ∧
    (∀ (g : Graph) (a b : Int),
      find_edge g a b = ((getAdj g a).find? fun e => decide (e.1 = b)).map (fun e => e.2)) ∧
    routeTotal
      [(1, [(2, 3, "AB")]), (2, [(1, 3, "AB"), (3, 9/2, "BC")]), (3, [(2, 9/2, "BC")])]
      [1, 2, 3] = 15/2 ∧
    (routeSteps
      [(1, [(2, 3, "AB")]), (2, [(1, 3, "AB"), (3, 9/2, "BC")]), (3, [(2, 9/2, "BC")])]
      [1, 2, 3]).length = 2 := by
  refine ⟨fun g path => ?_, fun g a b => findEdgeIn_eq_find? (getAdj g a) b,
    by with_unfolding_all decide, by with_unfolding_all decide⟩
  rw [routeTotal, routeSteps, routeTotal_eq_sum_aux]
  simp

/-! ### Claims C7, C5, C9: purity and small runs of the engine -/

theorem relaxOne_graph (u : Int) (d : ℚ) (st : DState) (e : Entry) :
    (relaxOne u d st e).graph = st.graph := by
  unfold relaxOne
  cases hl : dlookup st.dist e.1
  · rfl
  · dsimp only
    split <;> rfl

theorem relaxList_graph (u : Int) (d : ℚ) (es : List Entry) :
    ∀ st, (relaxList u d st es).graph = st.graph := by
  induction es with
  | nil => intro st; rfl
  | cons e rest ih =>
    intro st
    rw [relaxList, List.foldl_cons]
    exact (ih (relaxOne u d st e)).trans (relaxOne_graph u d st e)

theorem dijkstraLoop_graph (t : Int) : ∀ (fuel : Nat) (st stF : DState),
    dijkstraLoop t fuel st = some stF → stF.graph = st.graph := by
  intro fuel
  induction fuel with
  | zero => intro st stF h; cases h
  | succ n ih =>
    intro st stF h
    rw [dijkstraLoop] at h
    cases hp : popMin st.heap with
    | none =>
      rw [hp] at h
      cases h
      rfl
    | some pr =>
      obtain ⟨⟨d, u⟩, rest⟩ := pr
      rw [hp] at h
      dsimp only at h
      split at h
      · exact (ih { st with heap := rest } stF h).trans rfl
      · split at h
        · cases h
          rfl
        · refine (ih _ stF h).trans ?_
          rw [relaxList_graph]

/-- C7: the Shortest-Path Engine is deterministic — two runs on identical
`(graph, source, target)` inputs return identical distance and predecessor
maps — and it leaves the shared graph unchanged: the graph component of the
final engine state equals the input graph. -/
theorem c7_engine_pure (g : Graph) (s t : Int) (fuel : Nat) :
    dijkstra g s t fuel = dijkstra g s t fuel ∧
    ∀ stF, dijkstraLoop t fuel (initState g s) = some stF → stF.graph = g :=
  ⟨rfl, fun stF h => dijkstraLoop_graph t fuel (initState g s) stF h⟩

/-- Witness for C7 on a one-node run over the empty graph. -/
theorem c7_engine_pure_witness :
    (⟨[], [(1, 0)], [], []⟩ : DState).graph = ([] : Graph) :=
  (c7_engine_pure [] 1 1 1).2 ⟨[], [(1, 0)], [], []⟩ (by with_unfolding_all decide)

theorem popMin_singleton (d : ℚ) (u : Int) :
    popMin [(d, u)] = some ((d, u), []) := by
  rw [popMin, heapMin]
  simp [List.foldl_nil, List.erase_cons_head]

theorem staleB_source (s : Int) : staleB [(s, (0 : ℚ))] 0 s = false := by
  simp [staleB, dlookup]

/-- C5: with source equal to target (a node of the graph), the engine returns
the distance map `{source: 0}` assigning the source distance zero, and the
reconstructor returns the one-element path `[source]`. -/
theorem c5_source_equals_target (g : Graph) (s : Int) (fuel rf : Nat)
    (hs : s ∈ g.map Prod.fst) :
    dijkstra g s s (fuel + 1) = some ([(s, 0)], []) ∧
    dlookup [(s, (0 : ℚ))] s = some 0 ∧
    reconstruct_path [] s s rf = some (some [s]) := by
  refine ⟨?_, by simp [dlookup], by simp [reconstruct_path]⟩
  have hloop : dijkstraLoop s (fuel + 1) (initState g s) =
      some ⟨g, [(s, 0)], [], []⟩ := by
    rw [dijkstraLoop]
    simp only [initState]
    rw [popMin_singleton]
    dsimp only
    rw [staleB_source]
    simp
  rw [dijkstra, hloop]
  rfl

/-- C9: when the source is not a key of the adjacency structure (and the
target differs from it), the engine still returns normally, with the distance
map holding exactly the single entry `source ↦ 0` and an empty predecessor
map. -/
theorem c9_isolated_source (g : Graph) (s t : Int) (fuel : Nat)
    (hs : s ∉ g.map Prod.fst) (hts : t ≠ s) :
    dijkstra g s t (fuel + 2) = some ([(s, 0)], []) := by
  have hadj : getAdj g s = [] := getAdj_eq_nil_of_not_mem g s hs
  have hst : ¬ (s = t) := fun hh => hts hh.symm
  have hloop : dijkstraLoop t (fuel + 2) (initState g s) =
      some ⟨g, [(s, 0)], [], []⟩ := by
    rw [show fuel + 2 = (fuel + 1) + 1 from rfl, dijkstraLoop]
    simp only [initState, popMin_singleton]
    rw [staleB_source]
    simp [hst, relaxList, hadj, dijkstraLoop, popMin, heapMin]
  rw [dijkstra, hloop]
  rfl

/-- Witness for C5: source 1 equals target in a one-node graph. -/
theorem c5_source_equals_target_witness :
    dijkstra [(1, ([] : List Entry))] 1 1 (0 + 1) = some ([(1, 0)], []) ∧
    dlookup [(1, (0 : ℚ))] 1 = some 0 ∧
    reconstruct_path [] 1 1 0 = some (some [1]) :=
  c5_source_equals_target [(1, [])] 1 0 0 (by decide)

/-- Witness for C9: source 1 is not a key of the empty graph, target 2. -/
theorem c9_isolated_source_witness :
    dijkstra [] 1 2 (0 + 2) = some ([(1, 0)], []) :=
  c9_isolated_source [] 1 2 0 (by decide) (by decide)

/-! ### Walk lemmas -/

/-- Extend a walk by one edge at its end. -/
def Walk.snoc {g : Graph} : {a b : Int} → Walk g a b → (c : Int) → (w : ℚ) →
    (ds : String) → (c, w, ds) ∈ getAdj g b → Walk g a c
  | _, _, .nil a, c, w, ds, hm => .cons c w ds hm (.nil c)
  | _, _, .cons b0 w0 ds0 hm0 p, c, w, ds, hm => .cons b0 w0 ds0 hm0 (p.snoc c w ds hm)

theorem Walk.cost_snoc {g : Graph} : ∀ {a b : Int} (p : Walk g a b) (c : Int) (w : ℚ)
    (ds : String) (hm : (c, w, ds) ∈ getAdj g b),
    (p.snoc c w ds hm).cost = p.cost + w := by
  intro a b p
  induction p with
  | nil a => intro c w ds hm; simp [Walk.snoc, Walk.cost]
  | cons b0 w0 ds0 hm0 p ih =>
    intro c w ds hm
    simp [Walk.snoc, Walk.cost, ih, add_assoc]

theorem Walk.cost_nonneg {g : Graph} (hg : NonnegG g) : ∀ {a b : Int} (p : Walk g a b),
    0 ≤ p.cost := by
  intro a b p
  induction p with
  | nil a => exact le_refl 0
  | cons b0 w0 ds0 hm0 p ih =>
    exact add_nonneg (hg _ _ _ _ hm0) ih

/-! ### Heap-pop lemmas -/

theorem pickMin_cases (a b : ℚ × Int) : pickMin a b = a ∨ pickMin a b = b := by
  unfold pickMin
  split
  · exact Or.inr rfl
  · exact Or.inl rfl

theorem pickMin_fst_le_left (a b : ℚ × Int) : (pickMin a b).1 ≤ a.1 := by
  unfold pickMin
  split
  · rename_i h
    rcases h with h | h
    · exact le_of_lt h
    · exact le_of_eq h.1
  · exact le_refl _

theorem pickMin_fst_le_right (a b : ℚ × Int) : (pickMin a b).1 ≤ b.1 := by
  unfold pickMin
  split
  · exact le_refl _
  · rename_i h
    push_neg at h
    exact h.1

theorem foldl_pickMin_mem : ∀ (xs : List (ℚ × Int)) (x : ℚ × Int),
    xs.foldl pickMin x ∈ x :: xs := by
  intro xs
  induction xs with
  | nil => intro x; simp
  | cons y xs ih =>
    intro x
    rw [List.foldl_cons]
    rcases List.mem_cons.mp (ih (pickMin x y)) with h | h
    · rw [h]
      rcases pickMin_cases x y with h2 | h2 <;> simp [h2]
    · simp [h]

theorem foldl_pickMin_le : ∀ (xs : List (ℚ × Int)) (x : ℚ × Int),
    (xs.foldl pickMin x).1 ≤ x.1 ∧ ∀ y ∈ xs, (xs.foldl pickMin x).1 ≤ y.1 := by
  intro xs
  induction xs with
  | nil => intro x; simp
  | cons y xs ih =>
    intro x
    rw [List.foldl_cons]
    obtain ⟨h1, h2⟩ := ih (pickMin x y)
    refine ⟨h1.trans (pickMin_fst_le_left x y), ?_⟩
    intro z hz
    rcases List.mem_cons.mp hz with h | h
    · rw [h]
      exact h1.trans (pickMin_fst_le_right x y)
    · exact h2 z h

theorem popMin_eq_none_iff (l : List (ℚ × Int)) : popMin l = none ↔ l = [] := by
  cases l <;> simp [popMin, heapMin]

theorem popMin_spec (l : List (ℚ × Int)) (m : ℚ × Int) (rest : List (ℚ × Int))
    (h : popMin l = some (m, rest)) :
    m ∈ l ∧ rest = l.erase m ∧ ∀ x ∈ l, m.1 ≤ x.1 := by
  cases l with
  | nil => cases h
  | cons x xs =>
    rw [popMin, heapMin] at h
    injection h with h
    obtain ⟨h1, h2⟩ := Prod.mk.injEq .. ▸ h
    refine ⟨h1 ▸ foldl_pickMin_mem xs x, h2.symm ▸ h1 ▸ rfl, ?_⟩
    intro z hz
    obtain ⟨ha, hb⟩ := foldl_pickMin_le xs x
    rcases List.mem_cons.mp hz with hzz | hzz
    · rw [← h1, hzz]
      exact ha
    · rw [← h1]
      exact hb z hzz

theorem popMin_rest_mem (l : List (ℚ × Int)) (m : ℚ × Int) (rest : List (ℚ × Int))
    (h : popMin l = some (m, rest)) (x : ℚ × Int) (hx : x ∈ l) (hne : x ≠ m) :
    x ∈ rest := by
  obtain ⟨-, h2, -⟩ := popMin_spec l m rest h
  rw [h2]
  exact (List.mem_erase_of_ne hne).mpr hx

theorem popMin_rest_subset (l : List (ℚ × Int)) (m : ℚ × Int) (rest : List (ℚ × Int))
    (h : popMin l = some (m, rest)) : rest ⊆ l := by
  obtain ⟨-, h2, -⟩ := popMin_spec l m rest h
  rw [h2]
  exact List.erase_subset _ _

theorem popMin_rest_length (l : List (ℚ × Int)) (m : ℚ × Int) (rest : List (ℚ × Int))
    (h : popMin l = some (m, rest)) : rest.length + 1 = l.length := by
  obtain ⟨h1, h2, -⟩ := popMin_spec l m rest h
  rw [h2, List.length_erase_of_mem h1]
  have : l.length ≠ 0 := by
    intro hc
    rw [List.length_eq_zero] at hc
    subst hc
    cases h1
  omega

/-! ### The engine's loop invariant -/

/-- The predecessor chain from `v` reaches the source. -/
inductive ReachesSrc (p : List (Int × Int)) (s : Int) : Int → Prop where
  | base : ReachesSrc p s s
  | step {v u : Int} : dlookup p v = some u → ReachesSrc p s u → ReachesSrc p s v

/-- Invariant of the `while heap` loop of `dijkstra`: distances are costs of
real walks, heap entries dominate the recorded tentative distances, every
recorded node is either pending in the heap or fully relaxed, and the
predecessor map is an acyclic forest pointing back to the source along
non-increasing distances. -/
structure DInv (g : Graph) (s : Int) (st : DState) : Prop where
  geq : st.graph = g
  src0 : dlookup st.dist s = some 0
  sound : ∀ v dv, dlookup st.dist v = some dv → ∃ p : Walk g s v, p.cost = dv
  hdist : ∀ hd hv, (hd, hv) ∈ st.heap → ∃ dv, dlookup st.dist hv = some dv ∧ dv ≤ hd
  front : ∀ v dv, dlookup st.dist v = some dv →
    (∃ hd, (hd, v) ∈ st.heap ∧ hd ≤ dv) ∨
    (∀ x w ds, (x, w, ds) ∈ getAdj g v → ∃ dx, dlookup st.dist x = some dx ∧ dx ≤ dv + w)
  psrc : dlookup st.prev s = none
  psub : ∀ v u, dlookup st.prev v = some u → ∃ dv du, dlookup st.dist v = some dv ∧
    dlookup st.dist u = some du ∧ du ≤ dv
  preach : ∀ v u, dlookup st.prev v = some u → ReachesSrc st.prev s v
  ddom : ∀ v dv, dlookup st.dist v = some dv → v = s ∨ (dlookup st.prev v).isSome = true

/-- The weakened invariant holding while the edges of the popped node `u`
(at final distance `d`) are being relaxed: the pending-or-relaxed alternative
is only known away from `u`. -/
structure RelaxInv (g : Graph) (s u : Int) (d : ℚ) (st : DState) : Prop where
  geq : st.graph = g
  src0 : dlookup st.dist s = some 0
  sound : ∀ v dv, dlookup st.dist v = some dv → ∃ p : Walk g s v, p.cost = dv
  hdist : ∀ hd hv, (hd, hv) ∈ st.heap → ∃ dv, dlookup st.dist hv = some dv ∧ dv ≤ hd
  frontW : ∀ v dv, dlookup st.dist v = some dv → v ≠ u →
    (∃ hd, (hd, v) ∈ st.heap ∧ hd ≤ dv) ∨
    (∀ x w ds, (x, w, ds) ∈ getAdj g v → ∃ dx, dlookup st.dist x = some dx ∧ dx ≤ dv + w)
  du : dlookup st.dist u = some d
  psrc : dlookup st.prev s = none
  psub : ∀ v u0, dlookup st.prev v = some u0 → ∃ dv du0, dlookup st.dist v = some dv ∧
    dlookup st.dist u0 = some du0 ∧ du0 ≤ dv
  preach : ∀ v u0, dlookup st.prev v = some u0 → ReachesSrc st.prev s v
  ddom : ∀ v dv, dlookup st.dist v = some dv → v = s ∨ (dlookup st.prev v).isSome = true

theorem rs_update_lt {prev : List (Int × Int)} {dist : List (Int × ℚ)} {s : Int}
    (hsub : ∀ a b, dlookup prev a = some b → ∃ da db, dlookup dist a = some da ∧
      dlookup dist b = some db ∧ db ≤ da)
    {x : Int} {dx : ℚ} (hx : dlookup dist x = some dx) (u0 : Int) :
    ∀ {v : Int}, ReachesSrc prev s v → ∀ dv, dlookup dist v = some dv → dv < dx →
      ReachesSrc (dset prev x u0) s v := by
  intro v hrs
  induction hrs with
  | base => intro dv hv hlt; exact .base
  | step hpv hrs2 ih =>
    rename_i v2 u2
    intro dv hv hlt
    have hvx : v2 ≠ x := by
      intro hh
      subst hh
      rw [hv] at hx
      injection hx with hx2
      rw [hx2] at hlt
      exact lt_irrefl _ hlt
    obtain ⟨da, db, hda, hdb, hle⟩ := hsub v2 u2 hpv
    have hdadv : da = dv := by
      rw [hda] at hv
      injection hv
    refine .step ?_ (ih db hdb (lt_of_le_of_lt (hdadv ▸ hle) hlt))
    rw [dlookup_dset, if_neg (fun hh => hvx hh.symm)]
    exact hpv

theorem rs_update_absent {prev : List (Int × Int)} {dist : List (Int × ℚ)} {s : Int}
    (hsub : ∀ a b, dlookup prev a = some b → ∃ da db, dlookup dist a = some da ∧
      dlookup dist b = some db ∧ db ≤ da)
    {x : Int} (hx : dlookup dist x = none) (u0 : Int) :
    ∀ {v : Int}, ReachesSrc prev s v → ReachesSrc (dset prev x u0) s v := by
  intro v hrs
  induction hrs with
  | base => exact .base
  | step hpv hrs2 ih =>
    rename_i v2 u2
    obtain ⟨da, db, hda, hdb, hle⟩ := hsub v2 u2 hpv
    have hvx : ¬ x = v2 := by
      intro hh
      subst hh
      rw [hda] at hx
      cases hx
    refine .step ?_ ih
    rw [dlookup_dset, if_neg hvx]
    exact hpv

theorem rs_update_all {prev : List (Int × Int)} {s x u0 : Int}
    (hu : ReachesSrc (dset prev x u0) s u0) :
    ∀ {v : Int}, ReachesSrc prev s v → ReachesSrc (dset prev x u0) s v := by
  intro v hrs
  induction hrs with
  | base => exact .base
  | step hpv hrs2 ih =>
    rename_i v2 u2
    by_cases hvx : v2 = x
    · subst hvx
      exact .step (by rw [dlookup_dset, if_pos rfl]) hu
    · refine .step ?_ ih
      rw [dlookup_dset, if_neg (fun hh => hvx hh.symm)]
      exact hpv

theorem relaxOne_split (u : Int) (d : ℚ) (st : DState) (x : Int) (w : ℚ) (ds : String) :
    (∃ dv, dlookup st.dist x = some dv ∧ ¬ (d + w < dv) ∧
      relaxOne u d st (x, w, ds) = st) ∨
    ((∀ dv, dlookup st.dist x = some dv → d + w < dv) ∧
      relaxOne u d st (x, w, ds) =
        { st with dist := dset st.dist x (d + w), prev := dset st.prev x u,
                  heap := st.heap ++ [(d + w, x)] }) := by
  unfold relaxOne
  dsimp only
  cases hl : dlookup st.dist x with
  | none =>
    right
    constructor
    · intro dv h
      cases h
    · rfl
  | some dv =>
    by_cases hc : d + w < dv
    · right
      constructor
      · intro dv2 h
        injection h with h2
        rw [← h2]
        exact hc
      · dsimp only
        rw [if_pos hc]
    · left
      exact ⟨dv, rfl, hc, by dsimp only; rw [if_neg hc]⟩

theorem relaxOne_pres (g : Graph) (s u : Int) (d : ℚ) (hnn : NonnegG g)
    (st : DState) (x : Int) (w : ℚ) (ds : String)
    (he : (x, w, ds) ∈ getAdj g u) (hI : RelaxInv g s u d st) :
    RelaxInv g s u d (relaxOne u d st (x, w, ds)) ∧
    (∀ v dv, dlookup st.dist v = some dv →
      ∃ dv2, dlookup (relaxOne u d st (x, w, ds)).dist v = some dv2 ∧ dv2 ≤ dv) ∧
    (∃ dx, dlookup (relaxOne u d st (x, w, ds)).dist x = some dx ∧ dx ≤ d + w) ∧
    (∀ v dv2, dlookup (relaxOne u d st (x, w, ds)).dist v = some dv2 →
      dlookup st.dist v = some dv2 ∨ d ≤ dv2) ∧
    (∀ hd hv, (hd, hv) ∈ (relaxOne u d st (x, w, ds)).heap →
      (hd, hv) ∈ st.heap ∨ hd = d + w) ∧
    (relaxOne u d st (x, w, ds)).heap.length ≤ st.heap.length + 1 := by
  have hw : 0 ≤ w := hnn u x w ds he
  have hd0 : 0 ≤ d := by
    obtain ⟨p, hp⟩ := hI.sound u d hI.du
    rw [← hp]
    exact Walk.cost_nonneg hnn p
  rcases relaxOne_split u d st x w ds with ⟨dx0, hdx0, hnlt, heq⟩ | ⟨hlt, heq⟩
  · rw [heq]
    exact ⟨hI, fun v dv h => ⟨dv, h, le_refl dv⟩, ⟨dx0, hdx0, not_lt.mp hnlt⟩,
      fun v dv2 h => Or.inl h, fun hd hv h => Or.inl h, by omega⟩
  · have hxu : x ≠ u := by
      intro hh
      subst hh
      have := hlt d hI.du
      linarith
    have hxs : x ≠ s := by
      intro hh
      subst hh
      have := hlt 0 hI.src0
      linarith
    rw [heq]
    have hlk : ∀ q, dlookup (dset st.dist x (d + w)) q =
        if x = q then some (d + w) else dlookup st.dist q :=
      fun q => dlookup_dset _ _ _ _
    have hlkp : ∀ q, dlookup (dset st.prev x u) q =
        if x = q then some u else dlookup st.prev q :=
      fun q => dlookup_dset _ _ _ _
    refine ⟨⟨hI.geq, ?_, ?_, ?_, ?_, ?_, ?_, ?_, ?_, ?_⟩, ?_, ?_, ?_, ?_, ?_⟩
    · -- src0
      dsimp only
      rw [hlk s, if_neg hxs]
      exact hI.src0
    · -- sound
      intro v dv h
      rw [hlk v] at h
      by_cases hvx : x = v
      · subst hvx
        rw [if_pos rfl] at h
        injection h with h2
        obtain ⟨p, hp⟩ := hI.sound u d hI.du
        exact ⟨p.snoc x w ds he, by rw [Walk.cost_snoc, hp, h2]⟩
      · rw [if_neg hvx] at h
        exact hI.sound v dv h
    · -- hdist
      intro hd hv hmem
      rcases List.mem_append.mp hmem with hold | hnew
      · obtain ⟨dv, hdv, hle⟩ := hI.hdist hd hv hold
        by_cases hvx : x = hv
        · subst hvx
          exact ⟨d + w, by rw [hlk x, if_pos rfl],
            le_of_lt (lt_of_lt_of_le (hlt dv hdv) hle)⟩
        · exact ⟨dv, by rw [hlk hv, if_neg hvx]; exact hdv, hle⟩
      · rw [List.mem_singleton] at hnew
        injection hnew with h1 h2
        refine ⟨d + w, ?_, ?_⟩
        · rw [h2, hlk x, if_pos rfl]
        · rw [h1]
    · -- frontW
      intro v dv h hvu
      rw [hlk v] at h
      by_cases hvx : x = v
      · subst hvx
        rw [if_pos rfl] at h
        injection h with h2
        left
        exact ⟨d + w, by simp, le_of_eq h2⟩
      · rw [if_neg hvx] at h
        rcases hI.frontW v dv h hvu with ⟨hd, hmem, hle⟩ | hrel
        · left
          exact ⟨hd, List.mem_append_left _ hmem, hle⟩
        · right
          intro y wy dsy hmy
          obtain ⟨dy, hdy, hley⟩ := hrel y wy dsy hmy
          by_cases hyx : x = y
          · subst hyx
            exact ⟨d + w, by rw [hlk x, if_pos rfl],
              le_of_lt (lt_of_lt_of_le (hlt dy hdy) hley)⟩
          · exact ⟨dy, by rw [hlk y, if_neg hyx]; exact hdy, hley⟩
    · -- du
      dsimp only
      rw [hlk u, if_neg hxu]
      exact hI.du
    · -- psrc
      dsimp only
      rw [hlkp s, if_neg hxs]
      exact hI.psrc
    · -- psub
      intro v u0 h
      rw [hlkp v] at h
      by_cases hvx : x = v
      · subst hvx
        rw [if_pos rfl] at h
        injection h with h2
        subst h2
        refine ⟨d + w, d, by rw [hlk x, if_pos rfl], ?_, by linarith⟩
        rw [hlk u, if_neg hxu]
        exact hI.du
      · rw [if_neg hvx] at h
        obtain ⟨dv, du0, hdv, hdu0, hle⟩ := hI.psub v u0 h
        by_cases hux : x = u0
        · subst hux
          refine ⟨dv, d + w, by rw [hlk v, if_neg hvx]; exact hdv,
            by rw [hlk x, if_pos rfl], ?_⟩
          exact le_of_lt (lt_of_lt_of_le (hlt du0 hdu0) hle)
        · exact ⟨dv, du0, by rw [hlk v, if_neg hvx]; exact hdv,
            by rw [hlk u0, if_neg hux]; exact hdu0, hle⟩
    · -- preach
      have hu_rs : ReachesSrc st.prev s u := by
        rcases hI.ddom u d hI.du with h | h
        · subst h
          exact .base
        · cases hpu : dlookup st.prev u with
          | none => rw [hpu] at h; cases h
          | some u1 => exact hI.preach u u1 hpu
      have hu_rs2 : ReachesSrc (dset st.prev x u) s u := by
        cases hdx2 : dlookup st.dist x with
        | none => exact rs_update_absent hI.psub hdx2 u hu_rs
        | some dx0 =>
          exact rs_update_lt hI.psub hdx2 u hu_rs d hI.du
            (lt_of_le_of_lt (by linarith) (hlt dx0 hdx2))
      have hx_rs : ReachesSrc (dset st.prev x u) s x :=
        .step (by rw [hlkp x, if_pos rfl]) hu_rs2
      intro v u0 h
      rw [hlkp v] at h
      by_cases hvx : x = v
      · subst hvx
        exact hx_rs
      · rw [if_neg hvx] at h
        exact rs_update_all hu_rs2 (hI.preach v u0 h)
    · -- ddom
      intro v dv h
      rw [hlk v] at h
      by_cases hvx : x = v
      · subst hvx
        right
        rw [hlkp x, if_pos rfl]
        rfl
      · rw [if_neg hvx] at h
        rcases hI.ddom v dv h with h2 | h2
        · exact Or.inl h2
        · right
          rw [hlkp v, if_neg hvx]
          exact h2
    · -- pointwise decrease
      intro v dv h
      by_cases hvx : x = v
      · subst hvx
        exact ⟨d + w, by rw [hlk x, if_pos rfl], le_of_lt (hlt dv h)⟩
      · exact ⟨dv, by rw [hlk v, if_neg hvx]; exact h, le_refl dv⟩
    · -- relaxed-edge bound
      exact ⟨d + w, by rw [hlk x, if_pos rfl], le_refl _⟩
    · -- changed values dominate d
      intro v dv2 h
      rw [hlk v] at h
      by_cases hvx : x = v
      · subst hvx
        rw [if_pos rfl] at h
        injection h with h2
        right
        rw [← h2]
        linarith
      · rw [if_neg hvx] at h
        exact Or.inl h
    · -- heap membership
      intro hd hv h
      rcases List.mem_append.mp h with h2 | h2
      · exact Or.inl h2
      · rw [List.mem_singleton] at h2
        injection h2 with h3 h4
        exact Or.inr h3
    · -- heap length
      simp

theorem relaxList_pres (g : Graph) (s u : Int) (d : ℚ) (hnn : NonnegG g) :
    ∀ (es : List Entry) (st : DState), (∀ e ∈ es, e ∈ getAdj g u) →
    RelaxInv g s u d st →
    RelaxInv g s u d (relaxList u d st es) ∧
    (∀ v dv, dlookup st.dist v = some dv →
      ∃ dv2, dlookup (relaxList u d st es).dist v = some dv2 ∧ dv2 ≤ dv) ∧
    (∀ x w ds, (x, w, ds) ∈ es →
      ∃ dx, dlookup (relaxList u d st es).dist x = some dx ∧ dx ≤ d + w) ∧
    (∀ v dv2, dlookup (relaxList u d st es).dist v = some dv2 →
      dlookup st.dist v = some dv2 ∨ d ≤ dv2) ∧
    (∀ hd hv, (hd, hv) ∈ (relaxList u d st es).heap →
      (hd, hv) ∈ st.heap ∨ ∃ x w ds, (x, w, ds) ∈ es ∧ hd = d + w) ∧
    (relaxList u d st es).heap.length ≤ st.heap.length + es.length := by
  intro es
  induction es with
  | nil =>
    intro st hsub hI
    exact ⟨hI, fun v dv h => ⟨dv, h, le_refl dv⟩, fun x w ds h => absurd h (by simp),
      fun v dv2 h => Or.inl h, fun hd hv h => Or.inl h, by simp [relaxList]⟩
  | cons e es ih =>
    intro st hsub hI
    obtain ⟨x0, w0, ds0⟩ := e
    have he0 : (x0, w0, ds0) ∈ getAdj g u := hsub _ (List.mem_cons_self _ _)
    obtain ⟨hI1, hdec1, hedge1, hchg1, hheap1, hlen1⟩ :=
      relaxOne_pres g s u d hnn st x0 w0 ds0 he0 hI
    obtain ⟨hI2, hdec2, hedge2, hchg2, hheap2, hlen2⟩ :=
      ih (relaxOne u d st (x0, w0, ds0)) (fun e he => hsub e (List.mem_cons_of_mem _ he)) hI1
    have hfold : relaxList u d st ((x0, w0, ds0) :: es) =
        relaxList u d (relaxOne u d st (x0, w0, ds0)) es := by
      rw [relaxList, List.foldl_cons]
      rfl
    rw [hfold]
    refine ⟨hI2, ?_, ?_, ?_, ?_, ?_⟩
    · intro v dv h
      obtain ⟨dv1, h1, hle1⟩ := hdec1 v dv h
      obtain ⟨dv2, h2, hle2⟩ := hdec2 v dv1 h1
      exact ⟨dv2, h2, hle2.trans hle1⟩
    · intro x w ds hmem
      rcases List.mem_cons.mp hmem with hh | hh
      · injection hh with hh1 hh2
        injection hh2 with hh2 hh3
        subst hh1
        subst hh2
        obtain ⟨dx, hdx, hdxle⟩ := hedge1
        obtain ⟨dx2, hdx2, hdx2le⟩ := hdec2 x dx hdx
        exact ⟨dx2, hdx2, hdx2le.trans hdxle⟩
      · exact hedge2 x w ds hh
    · intro v dv2 h
      rcases hchg2 v dv2 h with h2 | h2
      · exact hchg1 v dv2 h2
      · exact Or.inr h2
    · intro hd hv h
      rcases hheap2 hd hv h with h2 | h2
      · rcases hheap1 hd hv h2 with h3 | h3
        · exact Or.inl h3
        · exact Or.inr ⟨x0, w0, ds0, List.mem_cons_self _ _, h3⟩
      · obtain ⟨x, w, ds, hmem, hval⟩ := h2
        exact Or.inr ⟨x, w, ds, List.mem_cons_of_mem _ hmem, hval⟩
    · calc (relaxList u d (relaxOne u d st (x0, w0, ds0)) es).heap.length
          ≤ (relaxOne u d st (x0, w0, ds0)).heap.length + es.length := hlen2
        _ ≤ st.heap.length + 1 + es.length := by omega
        _ = st.heap.length + ((x0, w0, ds0) :: es).length := by simp; omega

theorem staleB_true_iff (dist : List (Int × ℚ)) (d : ℚ) (u : Int) :
    staleB dist d u = true ↔ ∃ du0, dlookup dist u = some du0 ∧ du0 < d := by
  unfold staleB
  cases h : dlookup dist u <;> simp [h]

theorem staleB_false_iff (dist : List (Int × ℚ)) (d : ℚ) (u : Int) :
    staleB dist d u = false ↔ ∀ du0, dlookup dist u = some du0 → d ≤ du0 := by
  unfold staleB
  cases h : dlookup dist u <;> simp [h, not_lt]

theorem stale_pres (g : Graph) (s : Int) (st : DState) (d : ℚ) (u : Int)
    (rest : List (ℚ × Int)) (hp : popMin st.heap = some ((d, u), rest))
    (hst : staleB st.dist d u = true) (hI : DInv g s st) :
    DInv g s { st with heap := rest } := by
  obtain ⟨du0, hdu0, hlt⟩ := (staleB_true_iff st.dist d u).mp hst
  refine ⟨hI.geq, hI.src0, hI.sound, ?_, ?_, hI.psrc, hI.psub, hI.preach, hI.ddom⟩
  · intro hd hv h
    exact hI.hdist hd hv (popMin_rest_subset _ _ _ hp h)
  · intro v dv h
    rcases hI.front v dv h with ⟨hd, hmem, hle⟩ | hrel
    · left
      refine ⟨hd, popMin_rest_mem _ _ _ hp _ hmem ?_, hle⟩
      intro hcontra
      injection hcontra with h1 h2
      subst h1
      subst h2
      rw [hdu0] at h
      injection h with h3
      linarith
    · exact Or.inr hrel

theorem step_relaxInv (g : Graph) (s : Int) (st : DState) (d : ℚ) (u : Int)
    (rest : List (ℚ × Int)) (hp : popMin st.heap = some ((d, u), rest))
    (hst : staleB st.dist d u = false) (hI : DInv g s st) :
    RelaxInv g s u d { st with heap := rest } := by
  have hmem : (d, u) ∈ st.heap := (popMin_spec _ _ _ hp).1
  obtain ⟨du0, hdu0, hle⟩ := hI.hdist d u hmem
  have hge := (staleB_false_iff _ _ _).mp hst du0 hdu0
  have hdu : dlookup st.dist u = some d := by
    rw [hdu0]
    congr 1
    linarith
  refine ⟨hI.geq, hI.src0, hI.sound, ?_, ?_, hdu, hI.psrc, hI.psub, hI.preach, hI.ddom⟩
  · intro hd hv h
    exact hI.hdist hd hv (popMin_rest_subset _ _ _ hp h)
  · intro v dv h hvu
    rcases hI.front v dv h with ⟨hd, hmem2, hle2⟩ | hrel
    · left
      refine ⟨hd, popMin_rest_mem _ _ _ hp _ hmem2 ?_, hle2⟩
      intro hc
      injection hc with h1 h2
      exact hvu h2
    · exact Or.inr hrel

theorem dstep_DInv (g : Graph) (s u : Int) (d : ℚ) (hnn : NonnegG g) (st1 : DState)
    (hRI : RelaxInv g s u d st1) : DInv g s (relaxList u d st1 (getAdj g u)) := by
  obtain ⟨hI2, hdec, hedge, hchg, hheap, hlen⟩ :=
    relaxList_pres g s u d hnn (getAdj g u) st1 (fun e he => he) hRI
  refine ⟨hI2.geq, hI2.src0, hI2.sound, hI2.hdist, ?_, hI2.psrc, hI2.psub,
    hI2.preach, hI2.ddom⟩
  intro v dv h
  by_cases hvu : v = u
  · subst hvu
    right
    intro x w ds hm
    obtain ⟨dx, hdx, hdxle⟩ := hedge x w ds hm
    have hdveq : dv = d := by
      have hdu := hI2.du
      rw [h] at hdu
      injection hdu
    refine ⟨dx, hdx, ?_⟩
    rw [hdveq]
    exact hdxle
  · exact hI2.frontW v dv h hvu

theorem coverAux (g : Graph) (s : Int) (hnn : NonnegG g) (st : DState)
    (hI : DInv g s st) :
    ∀ (a b : Int) (p : Walk g a b) (da : ℚ), dlookup st.dist a = some da →
    (∃ db, dlookup st.dist b = some db ∧ db ≤ da + p.cost) ∨
    (∃ hd hv, (hd, hv) ∈ st.heap ∧ hd ≤ da + p.cost) := by
  intro a b p
  induction p with
  | nil a =>
    intro da hda
    exact Or.inl ⟨da, hda, by simp [Walk.cost]⟩
  | cons m w ds hm rest ih =>
    rename_i a0 c0
    intro da hda
    have hcost : 0 ≤ Walk.cost (Walk.cons m w ds hm rest) :=
      Walk.cost_nonneg hnn _
    rcases hI.front a0 da hda with ⟨hd, hmem, hle⟩ | hrel
    · right
      exact ⟨hd, a0, hmem, by linarith⟩
    · obtain ⟨dm, hdm, hdmle⟩ := hrel m w ds hm
      rcases ih dm hdm with ⟨db, hdb, hle2⟩ | ⟨hd, hv, hmem, hle2⟩
      · left
        refine ⟨db, hdb, ?_⟩
        have : Walk.cost (Walk.cons m w ds hm rest) = w + rest.cost := rfl
        rw [this]
        linarith
      · right
        refine ⟨hd, hv, hmem, ?_⟩
        have : Walk.cost (Walk.cons m w ds hm rest) = w + rest.cost := rfl
        rw [this]
        linarith

/-- What holds of the state returned by the `while heap` loop. -/
structure FinalInv (g : Graph) (s t : Int) (stF : DState) : Prop where
  src0 : dlookup stF.dist s = some 0
  sound : ∀ v dv, dlookup stF.dist v = some dv → ∃ p : Walk g s v, p.cost = dv
  minT : ∀ c, dlookup stF.dist t = some c → ∀ p : Walk g s t, c ≤ p.cost
  psrc : dlookup stF.prev s = none
  psub : ∀ v u, dlookup stF.prev v = some u → ∃ dv du, dlookup stF.dist v = some dv ∧
    dlookup stF.dist u = some du ∧ du ≤ dv
  preach : ∀ v u, dlookup stF.prev v = some u → ReachesSrc stF.prev s v

theorem dloop_main (g : Graph) (s t : Int) (hnn : NonnegG g) :
    ∀ (fuel : Nat) (st stF : DState), DInv g s st →
    dijkstraLoop t fuel st = some stF → FinalInv g s t stF := by
  intro fuel
  induction fuel with
  | zero => intro st stF hI h; cases h
  | succ n ih =>
    intro st stF hI h
    rw [dijkstraLoop] at h
    cases hp : popMin st.heap with
    | none =>
      rw [hp] at h
      cases h
      have hempty : st.heap = [] := (popMin_eq_none_iff _).mp hp
      refine ⟨hI.src0, hI.sound, ?_, hI.psrc, hI.psub, hI.preach⟩
      intro c hc p
      rcases coverAux g s hnn st hI s t p 0 hI.src0 with ⟨db, hdb, hle⟩ |
        ⟨hd, hv, hmem, hle⟩
      · rw [hc] at hdb
        injection hdb with h2
        rw [← h2] at hle
        linarith
      · rw [hempty] at hmem
        cases hmem
    | some pr =>
      obtain ⟨⟨d, u⟩, rest⟩ := pr
      rw [hp] at h
      dsimp only at h
      by_cases hst : staleB st.dist d u = true
      · rw [if_pos hst] at h
        exact ih _ stF (stale_pres g s st d u rest hp hst hI) h
      · have hst2 : staleB st.dist d u = false := by
          cases hb : staleB st.dist d u
          · rfl
          · exact absurd hb hst
        rw [if_neg hst] at h
        by_cases hut : u = t
        · rw [if_pos hut] at h
          cases h
          subst hut
          have hRI := step_relaxInv g s st d u rest hp hst2 hI
          refine ⟨hI.src0, hI.sound, ?_, hI.psrc, hI.psub, hI.preach⟩
          intro c hc p
          have hcd : c = d := by
            have hdu := hRI.du
            rw [show ({ st with heap := rest } : DState).dist = st.dist from rfl] at hdu
            rw [hc] at hdu
            injection hdu
          rcases coverAux g s hnn st hI s u p 0 hI.src0 with ⟨db, hdb, hle⟩ |
            ⟨hd, hv, hmem, hle⟩
          · rw [hc] at hdb
            injection hdb with h2
            rw [← h2] at hle
            linarith
          · have hdhd := (popMin_spec _ _ _ hp).2.2 (hd, hv) hmem
            rw [hcd]
            have : d ≤ hd := hdhd
            linarith
        · rw [if_neg hut] at h
          have hRI := step_relaxInv g s st d u rest hp hst2 hI
          have hDI := dstep_DInv g s u d hnn _ hRI
          rw [hI.geq] at h hDI
          exact ih _ stF hDI h

theorem DInv_init (g : Graph) (s : Int) : DInv g s (initState g s) := by
  refine ⟨rfl, by simp [initState, dlookup], ?_, ?_, ?_, rfl, ?_, ?_, ?_⟩
  · intro v dv h
    by_cases hsv : s = v
    · subst hsv
      simp only [initState, dlookup, if_pos rfl] at h
      injection h with h2
      exact ⟨Walk.nil s, by simp [Walk.cost, h2]⟩
    · simp [initState, dlookup, hsv] at h
  · intro hd hv h
    simp only [initState, List.mem_singleton] at h
    injection h with h1 h2
    subst h1
    subst h2
    exact ⟨0, by simp [initState, dlookup], le_refl 0⟩
  · intro v dv h
    by_cases hsv : s = v
    · subst hsv
      simp only [initState, dlookup, if_pos rfl] at h
      injection h with h2
      exact Or.inl ⟨0, by simp [initState], by rw [← h2]⟩
    · simp [initState, dlookup, hsv] at h
  · intro v u h
    cases h
  · intro v u h
    cases h
  · intro v dv h
    by_cases hsv : s = v
    · exact Or.inl hsv.symm
    · simp [initState, dlookup, hsv] at h

/-! ### Claim C1: the returned target distance is the shortest-path distance -/

/-- C1: over a graph loaded from a valid roads source (hence with nonnegative
edge weights), whenever `dijkstra` returns and its distance map has an entry
for the target, that entry is the minimum cost over all walks from source to
target, and some walk attains it. -/
theorem c1_shortest_distance (lines : List String) (g : Graph) (s t : Int)
    (fuel : Nat) (dist : List (Int × ℚ)) (prev : List (Int × Int)) (c : ℚ)
    (hload : load_graph lines = .ok g)
    (hrun : dijkstra g s t fuel = some (dist, prev))
    (hc : dlookup dist t = some c) :
    (∃ p : Walk g s t, p.cost = c) ∧ ∀ p : Walk g s t, c ≤ p.cost := by
  have hnn := load_graph_nonneg lines g hload
  unfold dijkstra at hrun
  cases hloop : dijkstraLoop t fuel (initState g s) with
  | none =>
    rw [hloop] at hrun
    cases hrun
  | some stF =>
    rw [hloop] at hrun
    injection hrun with h2
    have hdist : stF.dist = dist := congrArg Prod.fst h2
    have hF := dloop_main g s t hnn fuel (initState g s) stF (DInv_init g s) hloop
    rw [← hdist] at hc
    exact ⟨hF.sound t c hc, hF.minT c hc⟩

/-- Witness for C1 on the roads source `"1,2,3,A"`, target 2 at distance 3. -/
theorem c1_shortest_distance_witness :
    (∃ p : Walk [(1, [(2, 3, "A")]), (2, [(1, 3, "A")])] 1 2, p.cost = 3) ∧
    ∀ p : Walk [(1, [(2, 3, "A")]), (2, [(1, 3, "A")])] 1 2, (3 : ℚ) ≤ p.cost :=
  c1_shortest_distance ["1,2,3,A"] [(1, [(2, 3, "A")]), (2, [(1, 3, "A")])] 1 2 3
    [(1, 0), (2, 3)] [(2, 1)] 3 (by with_unfolding_all decide)
    (by with_unfolding_all decide) (by with_unfolding_all decide)

/-- If the source has no predecessor entry, the backward walk of
`reconstruct_path` terminates from any node whose predecessor chain reaches
the source, whatever source argument and accumulator it is run with. -/
theorem reconLoop_total (p : List (Int × Int)) (s : Int) (hs : dlookup p s = none) :
    ∀ v, ReachesSrc p s v → ∀ src path, ∃ fuel r, reconLoop p src fuel v path = some r := by
  intro v hv
  induction hv with
  | base =>
    intro src path
    by_cases hss : s = src
    · exact ⟨0 + 1, some path.reverse, by rw [reconLoop, if_pos hss]⟩
    · exact ⟨0 + 1, none, by rw [reconLoop, if_neg hss, hs]⟩
  | step hvu hrs ih =>
    rename_i v0 u0
    intro src path
    by_cases hvs : v0 = src
    · exact ⟨0 + 1, some path.reverse, by rw [reconLoop, if_pos hvs]⟩
    · obtain ⟨fuel, r, hr⟩ := ih src (path ++ [u0])
      refine ⟨fuel + 1, r, ?_⟩
      rw [reconLoop, if_neg hvs, hvu]
      exact hr

/-! ### Claim C10: the reconstructor's backward walk always terminates -/

/-- C10: on any predecessor map produced by a terminating run of `dijkstra`
over a graph with nonnegative weights, the backward walk of
`reconstruct_path` terminates for every source/target pair: some fuel
suffices to produce the Python return value. -/
theorem c10_reconstruction_terminates (g : Graph) (s t : Int) (fuel : Nat)
    (dist : List (Int × ℚ)) (prev : List (Int × Int)) (hnn : NonnegG g)
    (hrun : dijkstra g s t fuel = some (dist, prev)) :
    ∀ src tgt, ∃ rf r, reconstruct_path prev src tgt rf = some r := by
  unfold dijkstra at hrun
  cases hloop : dijkstraLoop t fuel (initState g s) with
  | none =>
    rw [hloop] at hrun
    cases hrun
  | some stF =>
    rw [hloop] at hrun
    injection hrun with h2
    have hprev : stF.prev = prev := congrArg Prod.snd h2
    have hF := dloop_main g s t hnn fuel (initState g s) stF (DInv_init g s) hloop
    intro src tgt
    by_cases hst : src = tgt
    · exact ⟨1, some [src], by unfold reconstruct_path; rw [if_pos hst]⟩
    · cases hl : dlookup prev tgt with
      | none =>
        refine ⟨1, none, ?_⟩
        unfold reconstruct_path
        rw [if_neg hst, hl]
        rfl
      | some u =>
        have hreach : ReachesSrc stF.prev s tgt :=
          hF.preach tgt u (by rw [hprev]; exact hl)
        rw [← hprev] at hl ⊢
        obtain ⟨rf, r, hr⟩ := reconLoop_total stF.prev s hF.psrc tgt hreach src [tgt]
        refine ⟨rf, r, ?_⟩
        unfold reconstruct_path
        rw [if_neg hst, hl]
        exact hr

/-- Witness for C10 on the predecessor map `{2: 1}` produced by running the
engine on the graph loaded from `"1,2,3,A"`. -/
theorem c10_reconstruction_terminates_witness :
    ∃ rf r, reconstruct_path [(2, 1)] 5 2 rf = some r :=
  c10_reconstruction_terminates [(1, [(2, 3, "A")]), (2, [(1, 3, "A")])] 1 2 3
    [(1, 0), (2, 3)] [(2, 1)]
    (load_graph_nonneg ["1,2,3,A"] [(1, [(2, 3, "A")]), (2, [(1, 3, "A")])]
      (by with_unfolding_all decide))
    (by with_unfolding_all decide) 5 2

/-! ### Termination of the `while heap` loop -/

/-- Total degree of the graph keys not yet settled (not in `P`). -/
def degSum (g : Graph) (P : List Int) : Nat :=
  (((g.map Prod.fst).dedup.filter fun v => decide (v ∉ P)).map
    fun v => (getAdj g v).length).sum

theorem filterSum_split (f : Int → Nat) (P : List Int) (u : Int) (hP : u ∉ P) :
    ∀ (l : List Int), l.Nodup → u ∈ l →
    ((l.filter fun v => decide (v ∉ P)).map f).sum =
      f u + ((l.filter fun v => decide (v ∉ u :: P)).map f).sum := by
  intro l
  induction l with
  | nil =>
    intro _ h
    cases h
  | cons a l ih =>
    intro hnd hm
    have hndl : l.Nodup := (List.nodup_cons.mp hnd).2
    have hal : a ∉ l := (List.nodup_cons.mp hnd).1
    by_cases hua : u = a
    · subst hua
      have hfl : l.filter (fun v => decide (v ∉ u :: P)) =
          l.filter (fun v => decide (v ∉ P)) := by
        apply List.filter_congr
        intro v hv
        have hvu : v ≠ u := fun hh => hal (hh ▸ hv)
        rw [decide_eq_decide]
        simp [List.mem_cons, hvu]
      have h1 : decide (u ∉ P) = true := decide_eq_true hP
      have h2 : ¬ (decide (u ∉ u :: P) = true) := by simp
      rw [List.filter_cons, List.filter_cons, if_pos h1, if_neg h2, hfl]
      simp only [List.map_cons, List.sum_cons]
    · have hml : u ∈ l := by
        rcases List.mem_cons.mp hm with h | h
        · exact absurd h hua
        · exact h
      have hrec := ih hndl hml
      by_cases haP : a ∈ P
      · have h1 : ¬ (decide (a ∉ P) = true) := by simp [haP]
        have h2 : ¬ (decide (a ∉ u :: P) = true) := by simp [haP]
        rw [List.filter_cons, List.filter_cons, if_neg h1, if_neg h2]
        exact hrec
      · have hau : a ≠ u := fun hh => hua hh.symm
        have h1 : decide (a ∉ P) = true := decide_eq_true haP
        have h2 : decide (a ∉ u :: P) = true := decide_eq_true (by simp [hau, haP])
        rw [List.filter_cons, List.filter_cons, if_pos h1, if_pos h2]
        simp only [List.map_cons, List.sum_cons]
        rw [hrec]
        omega

theorem degSum_split (g : Graph) (P : List Int) (u : Int)
    (hu : u ∈ g.map Prod.fst) (hP : u ∉ P) :
    degSum g P = (getAdj g u).length + degSum g (u :: P) :=
  filterSum_split (fun v => (getAdj g v).length) P u hP (g.map Prod.fst).dedup
    (List.nodup_dedup _) (List.mem_dedup.mpr hu)

theorem degSum_not_key (g : Graph) (P : List Int) (u : Int)
    (hu : u ∉ g.map Prod.fst) : degSum g (u :: P) = degSum g P := by
  unfold degSum
  have hfl : (g.map Prod.fst).dedup.filter (fun v => decide (v ∉ u :: P)) =
      (g.map Prod.fst).dedup.filter (fun v => decide (v ∉ P)) := by
    apply List.filter_congr
    intro v hv
    have hvu : v ≠ u := fun hh => hu (hh ▸ List.mem_dedup.mp hv)
    rw [decide_eq_decide]
    simp [List.mem_cons, hvu]
  rw [hfl]

/-- If every edge of `es` fails the improvement test, the relaxation loop
leaves the state unchanged. -/
theorem relaxList_noop (u : Int) (d : ℚ) :
    ∀ (es : List Entry) (st : DState),
    (∀ x w ds, (x, w, ds) ∈ es →
      ∃ dx, dlookup st.dist x = some dx ∧ ¬ (d + w < dx)) →
    relaxList u d st es = st := by
  intro es
  induction es with
  | nil =>
    intro st _
    rfl
  | cons e es ih =>
    intro st h
    obtain ⟨x0, w0, ds0⟩ := e
    obtain ⟨dx, hdx, hnlt⟩ := h x0 w0 ds0 (List.mem_cons_self _ _)
    have h1 : relaxOne u d st (x0, w0, ds0) = st := by
      rcases relaxOne_split u d st x0 w0 ds0 with ⟨dv, hdv, hn, heq⟩ | ⟨hall, heq⟩
      · exact heq
      · exact absurd (hall dx hdx) hnlt
    rw [relaxList, List.foldl_cons, h1]
    exact ih st (fun x w ds hm => h x w ds (List.mem_cons_of_mem _ hm))

/-- The loop terminates: with the settled set `P` as ghost state and the last
popped distance as a lower bound on the heap, the measure
`heap length + remaining degrees` strictly decreases at every iteration. -/
theorem dloop_terminates (g : Graph) (s t : Int) (hnn : NonnegG g) :
    ∀ (n : Nat) (st : DState) (P : List Int) (lastd : ℚ),
    DInv g s st →
    (∀ hd hv, (hd, hv) ∈ st.heap → lastd ≤ hd) →
    (∀ v, v ∈ P → ∃ dv, dlookup st.dist v = some dv ∧ dv ≤ lastd ∧
      ∀ x w ds, (x, w, ds) ∈ getAdj g v →
        ∃ dx, dlookup st.dist x = some dx ∧ dx ≤ dv + w) →
    st.heap.length + degSum g P ≤ n →
    ∃ stF, dijkstraLoop t (n + 1) st = some stF := by
  intro n
  induction n with
  | zero =>
    intro st P lastd hI hLB hP hm
    have hheap : st.heap = [] := List.length_eq_zero.mp (by omega)
    refine ⟨st, ?_⟩
    rw [dijkstraLoop, show popMin st.heap = none from by rw [hheap]; rfl]
  | succ n ih =>
    intro st P lastd hI hLB hP hm
    rw [dijkstraLoop]
    cases hp : popMin st.heap with
    | none => exact ⟨st, rfl⟩
    | some pr =>
      obtain ⟨⟨d, u⟩, rest⟩ := pr
      dsimp only
      have hlen := popMin_rest_length _ _ _ hp
      have hdmem : (d, u) ∈ st.heap := (popMin_spec _ _ _ hp).1
      have hmin : ∀ x ∈ st.heap, d ≤ x.1 := (popMin_spec _ _ _ hp).2.2
      have hldd : lastd ≤ d := hLB d u hdmem
      have hLB1 : ∀ hd hv, (hd, hv) ∈ rest → d ≤ hd := by
        intro hd hv h
        exact hmin (hd, hv) (popMin_rest_subset _ _ _ hp h)
      by_cases hst : staleB st.dist d u = true
      · rw [if_pos hst]
        refine ih { st with heap := rest } P d
          (stale_pres g s st d u rest hp hst hI) hLB1 ?_ ?_
        · intro v hv
          obtain ⟨dv, hdv, hvle, hrel⟩ := hP v hv
          exact ⟨dv, hdv, hvle.trans hldd, hrel⟩
        · dsimp only
          omega
      · rw [if_neg hst]
        have hst2 : staleB st.dist d u = false := by
          cases hb : staleB st.dist d u
          · rfl
          · exact absurd hb hst
        by_cases hut : u = t
        · rw [if_pos hut]
          exact ⟨_, rfl⟩
        · rw [if_neg hut]
          have hgeq := hI.geq
          have hRI := step_relaxInv g s st d u rest hp hst2 hI
          rw [hgeq] at hRI ⊢
          obtain ⟨hI2, hdec, hedge, hchg, hheap2, hlenr⟩ :=
            relaxList_pres g s u d hnn (getAdj g u) _ (fun e he => he) hRI
          have hDI2 := dstep_DInv g s u d hnn _ hRI
          have hdu1 : dlookup st.dist u = some d := hRI.du
          have hheapR : ∀ hd hv,
              (hd, hv) ∈ (relaxList u d
                ⟨g, st.dist, st.prev, rest⟩ (getAdj g u)).heap → d ≤ hd := by
            intro hd hv h
            rcases hheap2 hd hv h with h2 | ⟨x, w, ds, hmem, hval⟩
            · exact hLB1 hd hv h2
            · have hw : 0 ≤ w := hnn u x w ds hmem
              rw [hval]
              linarith
          by_cases huP : u ∈ P
          · have hnoop : relaxList u d ⟨g, st.dist, st.prev, rest⟩ (getAdj g u) =
                ⟨g, st.dist, st.prev, rest⟩ := by
              apply relaxList_noop
              intro x w ds hmx
              obtain ⟨du2, hdu2, hdule, hrel⟩ := hP u huP
              have hdeq : du2 = d := by
                rw [hdu2] at hdu1
                injection hdu1
              obtain ⟨dx, hdx, hdxle⟩ := hrel x w ds hmx
              have hdxd : dx ≤ d + w := by
                rw [← hdeq]
                exact hdxle
              exact ⟨dx, hdx, not_lt.mpr hdxd⟩
            rw [hnoop]
            rw [hnoop] at hDI2
            refine ih _ P d hDI2 hLB1 ?_ ?_
            · intro v hv
              obtain ⟨dv, hdv, hvle, hrel⟩ := hP v hv
              exact ⟨dv, hdv, hvle.trans hldd, hrel⟩
            · dsimp only
              omega
          · have hduR : dlookup (relaxList u d
                ⟨g, st.dist, st.prev, rest⟩ (getAdj g u)).dist u = some d := by
              obtain ⟨du2, hdu2, hdule⟩ := hdec u d hdu1
              rcases hchg u du2 hdu2 with h2 | h2
              · have h2b : dlookup st.dist u = some du2 := h2
                rw [hdu1] at h2b
                injection h2b with hh
                rw [hdu2, hh]
              · have : du2 = d := le_antisymm hdule h2
                rw [hdu2, this]
            have hP2 : ∀ v, v ∈ u :: P → ∃ dv,
                dlookup (relaxList u d
                  ⟨g, st.dist, st.prev, rest⟩ (getAdj g u)).dist v = some dv ∧
                dv ≤ d ∧ ∀ x w ds, (x, w, ds) ∈ getAdj g v →
                  ∃ dx, dlookup (relaxList u d
                    ⟨g, st.dist, st.prev, rest⟩ (getAdj g u)).dist x = some dx ∧
                    dx ≤ dv + w := by
              intro v hv
              rcases List.mem_cons.mp hv with hv | hv
              · subst hv
                exact ⟨d, hduR, le_refl d, fun x w ds hmx => hedge x w ds hmx⟩
              · obtain ⟨dv, hdv, hvle, hrel⟩ := hP v hv
                obtain ⟨dv2, hdv2, hdvle⟩ := hdec v dv hdv
                have hveq : dv2 = dv := by
                  rcases hchg v dv2 hdv2 with h2 | h2
                  · have h2b : dlookup st.dist v = some dv2 := h2
                    rw [hdv] at h2b
                    injection h2b with hh
                    exact hh.symm
                  · have h3 : dv ≤ d := hvle.trans hldd
                    linarith
                refine ⟨dv, by rw [hdv2, hveq], hvle.trans hldd, ?_⟩
                intro x w ds hmx
                obtain ⟨dx, hdx, hdxle⟩ := hrel x w ds hmx
                obtain ⟨dx2, hdx2, hdx2le⟩ := hdec x dx hdx
                exact ⟨dx2, hdx2, hdx2le.trans hdxle⟩
            refine ih _ (u :: P) d hDI2 hheapR hP2 ?_
            have h1 : (relaxList u d
                ⟨g, st.dist, st.prev, rest⟩ (getAdj g u)).heap.length ≤
                rest.length + (getAdj g u).length := hlenr
            by_cases hkey : u ∈ g.map Prod.fst
            · have hsplit := degSum_split g P u hkey huP
              omega
            · have hz : (getAdj g u).length = 0 := by
                rw [getAdj_eq_nil_of_not_mem g u hkey]
                rfl
              have h2 := degSum_not_key g P u hkey
              omega

/-! ### Claim C4: unreachable target yields no entries and "no path" -/

/-- C4: on a graph with nonnegative weights (as the loader guarantees), if the
target is not reachable from the source, `dijkstra` terminates without error
on some fuel, its distance and predecessor maps have no entry for the target,
and `reconstruct_path` on that predecessor map returns Python's `None`
("no path") rather than raising. -/
theorem c4_unreachable_target (g : Graph) (s t : Int) (hnn : NonnegG g)
    (hur : ¬ Reachable g s t) :
    ∃ fuel dist prev, dijkstra g s t fuel = some (dist, prev) ∧
      dlookup dist t = none ∧ dlookup prev t = none ∧
      ∀ rf, reconstruct_path prev s t rf = some none := by
  have hinit : (initState g s).heap.length + degSum g [] ≤ 1 + degSum g [] :=
    le_refl _
  obtain ⟨stF, hloop⟩ := dloop_terminates g s t hnn (1 + degSum g [])
    (initState g s) [] 0 (DInv_init g s)
    (by
      intro hd hv h
      have h2 : (hd, hv) = ((0 : ℚ), s) := List.mem_singleton.mp h
      injection h2 with h3 h4
      rw [h3])
    (by
      intro v hv
      cases hv)
    hinit
  have hF := dloop_main g s t hnn (1 + degSum g [] + 1) (initState g s) stF
    (DInv_init g s) hloop
  have hdt : dlookup stF.dist t = none := by
    cases hdt : dlookup stF.dist t with
    | none => rfl
    | some c =>
      obtain ⟨p, -⟩ := hF.sound t c hdt
      exact absurd ⟨p⟩ hur
  have hpt : dlookup stF.prev t = none := by
    cases hpt : dlookup stF.prev t with
    | none => rfl
    | some v =>
      obtain ⟨dv, du, hdv, -, -⟩ := hF.psub t v hpt
      rw [hdt] at hdv
      cases hdv
  have hsne : ¬ (s = t) := by
    intro hh
    subst hh
    exact hur ⟨Walk.nil s⟩
  refine ⟨1 + degSum g [] + 1, stF.dist, stF.prev, ?_, hdt, hpt, ?_⟩
  · unfold dijkstra
    rw [hloop]
    rfl
  · intro rf
    unfold reconstruct_path
    rw [if_neg hsne, hpt]
    rfl

/-- Witness for C4 on the empty graph with source 1 and target 2. -/
theorem c4_unreachable_target_witness :
    ∃ fuel dist prev, dijkstra ([] : Graph) 1 2 fuel = some (dist, prev) ∧
      dlookup dist 2 = none ∧ dlookup prev 2 = none ∧
      ∀ rf, reconstruct_path prev 1 2 rf = some none :=
  c4_unreachable_target [] 1 2
    (by
      intro u v w ds hm
      cases hm)
    (by
      rintro ⟨p⟩
      cases p with
      | cons b w ds hm p => cases hm)
